import Mathlib

/-!
Verification of the constraint-satisfaction engine of `generate.py`
(class `CrosswordCreator`): node consistency, AC-3 propagation, the
consistency check, the search heuristics and backtracking search.

Conventions of the embedding:
* Python strings are `List Char`; `s[i]` is `List.get?` (an out-of-range
  index is a raised `IndexError`, modelled by propagating `Option.none`).
* Python dicts keyed by variables (`self.domains`, assignments) are
  association lists; `d[k]` is `lookupV` (`none` models a `KeyError`) and
  in-place mutation of the list stored at an existing key is `updateV`.
* Fallible code (code that can raise) returns `Option`; a `none` result
  models an uncaught exception.
* Loops that the source runs until a queue empties are written with an
  explicit. provably sufficient, step budget (`ac3Bound`, `btMeasure`),
  so every definition is executable by kernel reduction; stability
  theorems below show the budget does not affect the result.

The data model (`Variable`, the overlap relation, `neighbors`, the word
set) lives in `crossword.py`, which is not part of the sources given;
those definitions are modelled from the spec, as marked below.
-/

namespace CW

/-- Modelled from the spec: a slot's orientation tag (`Variable.ACROSS` /
`Variable.DOWN` in `crossword.py`, which is not in the sources). -/
inductive Direction where
  | across
  | down
deriving DecidableEq

/-- Modelled from the spec: a Slot ("variable"): starting cell `(i, j)`,
an orientation, and a fixed length; equality is structural on all fields
(`crossword.py` is not in the sources). -/
structure Variable where
  i : Nat
  j : Nat
  direction : Direction
  length : Nat
deriving DecidableEq

/-- A candidate word: a Python string as a list of characters. -/
abbrev Word := List Char

/-- Modelled from the spec: the Puzzle Description (`Crossword` in
`crossword.py`, not in the sources): the set of slots, the vocabulary,
and the precomputed overlap relation.  The `overlaps` dict holds an
entry for every ordered pair of distinct slots (`None` when the two
slots share no cell), so it is modelled as a total function into
`Option (Nat × Nat)`.  The field `vars` stands for the source's
`variables`, which is a reserved word in Lean. -/
structure Crossword where
  vars : List Variable
  words : List Word
  overlaps : Variable → Variable → Option (Nat × Nat)

/-- The Domain Store `self.domains`: a dict from slots to candidate-word
lists. -/
abbrev Domains := List (Variable × List Word)

/-- An assignment: a dict from slots to words. -/
abbrev Assignment := List (Variable × Word)

/-- Dict access `m[k]`: value at the first matching key; `none` models a
`KeyError`. -/
def lookupV {β : Type} : List (Variable × β) → Variable → Option β
  | [], _ => none
  | (k, b) :: rest, v => if v = k then some b else lookupV rest v

/-- Dict update `m[k] = b` for a key already present: replaces the value
at the first matching key (all uses below are guarded by a successful
`lookupV`). -/
def updateV {β : Type} : List (Variable × β) → Variable → β → List (Variable × β)
  | [], _, _ => []
  | (k, b) :: rest, v, b2 => if v = k then (k, b2) :: rest else (k, b) :: updateV rest v b2

/-- Modelled from the spec: `Crossword.neighbors(x)` in `crossword.py`
(not in the sources): the slots other than `x` whose overlap with `x` is
defined. -/
def neighbors (c : Crossword) (x : Variable) : List Variable :=
  c.vars.filter (fun v => decide (v ≠ x) && (c.overlaps v x).isSome)

/-- Modelled from the spec: the key list of the `overlaps` dict — every
ordered pair of distinct slots (`crossword.py` is not in the sources).
`list(self.crossword.overlaps)` and the iteration in `consistent`
enumerate exactly these pairs. -/
def allArcs (c : Crossword) : List (Variable × Variable) :=
  c.vars.flatMap (fun a => (c.vars.filter (fun b => decide (b ≠ a))).map (fun b => (a, b)))

/-- `CrosswordCreator.__init__`: every slot's domain starts as a copy of
the full vocabulary. -/
def initDomains (c : Crossword) : Domains :=
  c.vars.map (fun v => (v, c.words))

/-- `enforce_node_consistency`: for each slot keep exactly the words
whose length equals the slot's length. -/
def enforce_node_consistency (d : Domains) : Domains :=
  d.map (fun e => (e.1, e.2.filter (fun w => w.length == e.1.length)))

theorem lookupV_map_snd {β γ : Type} (f : Variable → β → γ) :
    ∀ (d : List (Variable × β)) (v : Variable),
      lookupV (d.map (fun e => (e.1, f e.1 e.2))) v = (lookupV d v).map (f v) := by
  intro d v
  induction d with
  | nil => rfl
  | cons e rest ih =>
    obtain ⟨k, b⟩ := e
    by_cases h : v = k
    · subst h
      simp [lookupV]
    · simp [lookupV, h, ih]

theorem lookupV_enc (d : Domains) (v : Variable) :
    lookupV (enforce_node_consistency d) v
      = (lookupV d v).map (fun ws => ws.filter (fun w => w.length == v.length)) := by
  simpa [enforce_node_consistency] using
    lookupV_map_snd (fun k ws => ws.filter (fun w => w.length == k.length)) d v

/-- Claim C6: node-consistency soundness.  After `enforce_node_consistency`,
every word remaining in a slot's domain has the slot's length, every word
of the old domain that is missing from the new one had a different
length, and no word was added. -/
theorem enforce_node_consistency_sound (d : Domains) (v : Variable)
    (ws ws' : List Word)
    (hold : lookupV d v = some ws)
    (hnew : lookupV (enforce_node_consistency d) v = some ws') :
    (∀ w ∈ ws', w.length = v.length) ∧
    (∀ w ∈ ws, w ∉ ws' → w.length ≠ v.length) ∧
    (∀ w ∈ ws', w ∈ ws) := by
  have h := lookupV_enc d v
  rw [hold, hnew] at h
  simp only [Option.map] at h
  have hws : ws' = ws.filter (fun w => w.length == v.length) :=
    (Option.some.injEq _ _).mp h
  subst hws
  refine ⟨?_, ?_, ?_⟩
  · intro w hw
    have := List.of_mem_filter hw
    simpa using this
  · intro w hw hnot hlen
    exact hnot (List.mem_filter.mpr ⟨hw, by simpa using hlen⟩)
  · intro w hw
    exact List.mem_of_mem_filter hw

/-- Witness for C6 on a concrete store. -/
theorem enforce_node_consistency_sound_witness :
    (∀ w ∈ [['a', 'b']],
        w.length = (Variable.mk 0 0 Direction.across 2).length) ∧
    (∀ w ∈ [['a', 'b'], ['c']], w ∉ [['a', 'b']] →
        w.length ≠ (Variable.mk 0 0 Direction.across 2).length) ∧
    (∀ w ∈ [['a', 'b']], w ∈ [['a', 'b'], ['c']]) :=
  enforce_node_consistency_sound
    [(Variable.mk 0 0 Direction.across 2, [['a', 'b'], ['c']])]
    (Variable.mk 0 0 Direction.across 2)
    [['a', 'b'], ['c']] [['a', 'b']] (by decide) (by decide)

/-- Claim C7: node-consistency is idempotent — a second run changes
nothing, for every Domain Store. -/
theorem enforce_node_consistency_idem (d : Domains) :
    enforce_node_consistency (enforce_node_consistency d) = enforce_node_consistency d := by
  unfold enforce_node_consistency
  rw [List.map_map]
  apply List.map_congr_left
  intro e _
  simp only [Function.comp]
  rw [List.filter_filter]
  have hp : (fun a : Word => (a.length == e.1.length) && (a.length == e.1.length))
      = fun a : Word => a.length == e.1.length := by
    funext a
    exact Bool.and_self _
  rw [hp]

/-- The generator `any(val_x[overlap_x] == val_y[overlap_y] for val_y in y_domain)`
inside `revise`: scan `ydom` left to right; each comparison first indexes
`vx` at `i`, then the current `ydom` word at `j` (either out of range
raises, modelled as `none`), and the scan stops at the first match. -/
def hasCorresponding (vx : Word) (i j : Nat) : List Word → Option Bool
  | [] => some false
  | vy :: rest =>
    match vx[i]? with
    | none => none
    | some cx =>
      match vy[j]? with
      | none => none
      | some cy => if cx = cy then some true else hasCorresponding vx i j rest

/-- The claim's support predicate: some word of `ydom` agrees with `w` at
the overlap offsets (both characters defined and equal). -/
def hasSupportB (i j : Nat) (ydom : List Word) (w : Word) : Bool :=
  ydom.any (fun w2 =>
    match w[i]?, w2[j]? with
    | some a, some b => a == b
    | _, _ => false)

/-- The `for val_x in x_domain.copy()` loop of `revise`: `copy` is the
remainder of the iterated snapshot, `cur` the live list mutated by
`x_domain.remove` (`List.erase` removes the first occurrence, as Python's
`list.remove` does), `rev` the `revised` flag. -/
def reviseLoop (i j : Nat) (ydom : List Word) : List Word → List Word → Bool → Option (List Word × Bool)
  | [], cur, rev => some (cur, rev)
  | vx :: copyRest, cur, rev =>
    match hasCorresponding vx i j ydom with
    | none => none
    | some true => reviseLoop i j ydom copyRest cur rev
    | some false => reviseLoop i j ydom copyRest (cur.erase vx) true

/-- `CrosswordCreator.revise(x, y)`.  Reads the overlap, and when one is
defined looks up both domains (a missing key is a `KeyError`, `none`) and
runs the removal loop.  `y_domain` is read before the loop; since the
loop mutates only `x`'s list, the snapshot is faithful whenever `x ≠ y`
(the overlap relation holds entries only for distinct slots). -/
def revise (c : Crossword) (d : Domains) (x y : Variable) : Option (Domains × Bool) :=
  match c.overlaps x y with
  | none => some (d, false)
  | some (i, j) =>
    match lookupV d x, lookupV d y with
    | some xdom, some ydom =>
      match reviseLoop i j ydom xdom xdom false with
      | none => none
      | some (cur, rev) => some (updateV d x cur, rev)
    | _, _ => none

/-- Total number of words across all domains (termination measure of AC-3). -/
def totalSize (d : Domains) : Nat :=
  (d.map (fun e => e.2.length)).sum

theorem lookupV_updateV_self {β : Type} :
    ∀ (d : List (Variable × β)) (x : Variable) (b b0 : β),
      lookupV d x = some b0 → lookupV (updateV d x b) x = some b := by
  intro d x b b0 h
  induction d with
  | nil => simp [lookupV] at h
  | cons e rest ih =>
    obtain ⟨k, v⟩ := e
    by_cases hk : x = k
    · subst hk
      simp [updateV, lookupV]
    · simp only [lookupV, if_neg hk] at h
      simp [updateV, lookupV, hk, ih h]

theorem lookupV_updateV_ne {β : Type} :
    ∀ (d : List (Variable × β)) (x : Variable) (b : β) (z : Variable),
      z ≠ x → lookupV (updateV d x b) z = lookupV d z := by
  intro d x b z hz
  induction d with
  | nil => rfl
  | cons e rest ih =>
    obtain ⟨k, v⟩ := e
    by_cases hk : x = k
    · subst hk
      simp [updateV, lookupV, hz]
    · by_cases hzk : z = k
      · subst hzk
        simp [updateV, lookupV, hk]
      · simp [updateV, lookupV, hk, hzk, ih]

theorem keys_updateV {β : Type} :
    ∀ (d : List (Variable × β)) (x : Variable) (b : β),
      (updateV d x b).map Prod.fst = d.map Prod.fst := by
  intro d x b
  induction d with
  | nil => rfl
  | cons e rest ih =>
    obtain ⟨k, v⟩ := e
    by_cases hk : x = k
    · simp [updateV, hk]
    · simp [updateV, hk, ih]

theorem updateV_self_eq {β : Type} :
    ∀ (d : List (Variable × β)) (x : Variable) (b : β),
      lookupV d x = some b → updateV d x b = d := by
  intro d x b h
  induction d with
  | nil => simp [lookupV] at h
  | cons e rest ih =>
    obtain ⟨k, v⟩ := e
    by_cases hk : x = k
    · subst hk
      simp only [lookupV, if_true] at h
      obtain rfl : v = b := Option.some.inj h
      simp [updateV]
    · simp only [lookupV, if_neg hk] at h
      simp [updateV, hk, ih h]

theorem totalSize_updateV_lt :
    ∀ (d : Domains) (x : Variable) (ws b : List Word),
      lookupV d x = some ws → b.length < ws.length →
      totalSize (updateV d x b) < totalSize d := by
  intro d x ws b h hlen
  induction d with
  | nil => simp [lookupV] at h
  | cons e rest ih =>
    obtain ⟨k, v⟩ := e
    by_cases hk : x = k
    · subst hk
      simp only [lookupV, if_true] at h
      obtain rfl : v = ws := Option.some.inj h
      simp only [updateV, if_true, totalSize, List.map_cons, List.sum_cons]
      omega
    · simp only [lookupV, if_neg hk] at h
      have := ih h
      simp only [updateV, if_neg hk, totalSize, List.map_cons, List.sum_cons]
      simp only [totalSize] at this
      omega

theorem totalSize_updateV_le :
    ∀ (d : Domains) (x : Variable) (ws b : List Word),
      lookupV d x = some ws → b.length ≤ ws.length →
      totalSize (updateV d x b) ≤ totalSize d := by
  intro d x ws b h hlen
  induction d with
  | nil => simp [lookupV] at h
  | cons e rest ih =>
    obtain ⟨k, v⟩ := e
    by_cases hk : x = k
    · subst hk
      simp only [lookupV, if_true] at h
      obtain rfl : v = ws := Option.some.inj h
      simp only [updateV, if_true, totalSize, List.map_cons, List.sum_cons]
      omega
    · simp only [lookupV, if_neg hk] at h
      have := ih h
      simp only [updateV, if_neg hk, totalSize, List.map_cons, List.sum_cons]
      simp only [totalSize] at this
      omega

theorem hasCorresponding_cons_some {vx vy : Word} {i j : Nat} {cx cy : Char}
    (rest : List Word) (hx : vx[i]? = some cx) (hy : vy[j]? = some cy) :
    hasCorresponding vx i j (vy :: rest)
      = if cx = cy then some true else hasCorresponding vx i j rest := by
  simp [hasCorresponding, hx, hy]

theorem hasCorresponding_cons_nx {vx vy : Word} {i j : Nat}
    (rest : List Word) (hx : vx[i]? = none) :
    hasCorresponding vx i j (vy :: rest) = none := by
  simp [hasCorresponding, hx]

theorem hasCorresponding_cons_ny {vx vy : Word} {i j : Nat} {cx : Char}
    (rest : List Word) (hx : vx[i]? = some cx) (hy : vy[j]? = none) :
    hasCorresponding vx i j (vy :: rest) = none := by
  simp [hasCorresponding, hx, hy]

theorem hasSupportB_iff (i j : Nat) (ydom : List Word) (w : Word) :
    hasSupportB i j ydom w = true ↔
      ∃ w2 ∈ ydom, ∃ ch, w[i]? = some ch ∧ w2[j]? = some ch := by
  rw [hasSupportB, List.any_eq_true]
  constructor
  · rintro ⟨w2, hw2, hm⟩
    cases hx : w[i]? with
    | none => rw [hx] at hm; simp at hm
    | some a =>
      cases hy : w2[j]? with
      | none => rw [hx, hy] at hm; simp at hm
      | some b =>
        rw [hx, hy] at hm
        simp only [beq_iff_eq] at hm
        exact ⟨w2, hw2, a, rfl, by rw [hy, hm]⟩
  · rintro ⟨w2, hw2, ch, hx, hy⟩
    exact ⟨w2, hw2, by simp [hx, hy]⟩

theorem hasCorresponding_true_agree (vx : Word) (i j : Nat) :
    ∀ ydom : List Word, hasCorresponding vx i j ydom = some true →
      ∃ w2 ∈ ydom, ∃ ch, vx[i]? = some ch ∧ w2[j]? = some ch := by
  intro ydom
  induction ydom with
  | nil => intro h; simp [hasCorresponding] at h
  | cons vy rest ih =>
    intro h
    cases hx : vx[i]? with
    | none => rw [hasCorresponding_cons_nx rest hx] at h; exact absurd h (by simp)
    | some cx =>
      cases hy : vy[j]? with
      | none => rw [hasCorresponding_cons_ny rest hx hy] at h; exact absurd h (by simp)
      | some cy =>
        rw [hasCorresponding_cons_some rest hx hy] at h
        by_cases hc : cx = cy
        · refine ⟨vy, by simp, cx, rfl, ?_⟩
          rw [hc]
          exact hy
        · rw [if_neg hc] at h
          obtain ⟨w2, hw2, ch, hxe, hye⟩ := ih h
          have hch : ch = cx := by
            rw [hx] at hxe
            exact (Option.some.inj hxe).symm
          subst hch
          exact ⟨w2, by simp [hw2], ch, rfl, hye⟩

theorem hasCorresponding_true_suppB (vx : Word) (i j : Nat)
    (ydom : List Word) (h : hasCorresponding vx i j ydom = some true) :
    hasSupportB i j ydom vx = true :=
  (hasSupportB_iff i j ydom vx).mpr (hasCorresponding_true_agree vx i j ydom h)

theorem hasCorresponding_false_noAgree (vx : Word) (i j : Nat) :
    ∀ ydom : List Word, hasCorresponding vx i j ydom = some false →
      ∀ w2 ∈ ydom, ¬∃ ch, vx[i]? = some ch ∧ w2[j]? = some ch := by
  intro ydom
  induction ydom with
  | nil => intro _ w2 hw2; simp at hw2
  | cons vy rest ih =>
    intro h w2 hw2
    cases hx : vx[i]? with
    | none => rw [hasCorresponding_cons_nx rest hx] at h; exact absurd h (by simp)
    | some cx =>
      cases hy : vy[j]? with
      | none => rw [hasCorresponding_cons_ny rest hx hy] at h; exact absurd h (by simp)
      | some cy =>
        rw [hasCorresponding_cons_some rest hx hy] at h
        by_cases hc : cx = cy
        · rw [if_pos hc] at h; exact absurd h (by simp)
        · rw [if_neg hc] at h
          rcases List.mem_cons.mp hw2 with h2 | h2
          · subst h2
            rintro ⟨ch, hch, hch2⟩
            have e1 : ch = cx := Option.some.inj hch.symm
            rw [hy] at hch2
            have e2 : ch = cy := (Option.some.inj hch2).symm
            exact hc (e1.symm.trans e2)
          · rintro ⟨ch, hch, hch2⟩
            exact ih h w2 h2 ⟨ch, by rw [hx]; exact hch, hch2⟩

theorem hasCorresponding_false_suppB (vx : Word) (i j : Nat)
    (ydom : List Word) (h : hasCorresponding vx i j ydom = some false) :
    hasSupportB i j ydom vx = false := by
  by_contra hb
  have ht : hasSupportB i j ydom vx = true := by
    cases hsb : hasSupportB i j ydom vx
    · exact absurd hsb hb
    · rfl
  obtain ⟨w2, hw2, ch, hx, hy⟩ := (hasSupportB_iff i j ydom vx).mp ht
  exact hasCorresponding_false_noAgree vx i j ydom h w2 hw2 ⟨ch, hx, hy⟩

theorem hasCorresponding_isSome (vx : Word) (i j : Nat) :
    ∀ ydom : List Word, (ydom ≠ [] → i < vx.length) →
      (∀ w2 ∈ ydom, j < w2.length) →
      ∃ b, hasCorresponding vx i j ydom = some b := by
  intro ydom
  induction ydom with
  | nil => intro _ _; exact ⟨false, rfl⟩
  | cons vy rest ih =>
    intro hi hj
    have hxl : i < vx.length := hi (by simp)
    have hyl : j < vy.length := hj vy (by simp)
    obtain ⟨cx, hx⟩ : ∃ cx, vx[i]? = some cx := ⟨_, List.getElem?_eq_getElem hxl⟩
    obtain ⟨cy, hy⟩ : ∃ cy, vy[j]? = some cy := ⟨_, List.getElem?_eq_getElem hyl⟩
    by_cases hc : cx = cy
    · exact ⟨true, by rw [hasCorresponding_cons_some rest hx hy, if_pos hc]⟩
    · obtain ⟨b, hb⟩ := ih (fun _ => hxl) (fun w2 hw2 => hj w2 (by simp [hw2]))
      exact ⟨b, by rw [hasCorresponding_cons_some rest hx hy, if_neg hc, hb]⟩

theorem reviseLoop_all_some (i j : Nat) (ydom : List Word) :
    ∀ (copy cur : List Word) (rev : Bool) (p : List Word × Bool),
      reviseLoop i j ydom copy cur rev = some p →
      ∀ w ∈ copy, hasCorresponding w i j ydom ≠ none := by
  intro copy
  induction copy with
  | nil => intro cur rev p _ w hw; simp at hw
  | cons vx rest ih =>
    intro cur rev p h w hw
    simp only [reviseLoop] at h
    cases hhc : hasCorresponding vx i j ydom with
    | none => rw [hhc] at h; simp at h
    | some b =>
      rw [hhc] at h
      rcases List.mem_cons.mp hw with h2 | h2
      · subst h2; simp [hhc]
      · cases b with
        | true => exact ih cur rev p h w h2
        | false => exact ih (cur.erase vx) true p h w h2

theorem reviseLoop_length_le (i j : Nat) (ydom : List Word) :
    ∀ (copy cur : List Word) (rev : Bool) (final : List Word) (r : Bool),
      reviseLoop i j ydom copy cur rev = some (final, r) →
      final.length ≤ cur.length := by
  intro copy
  induction copy with
  | nil =>
    intro cur rev final r h
    simp only [reviseLoop, Option.some.injEq, Prod.mk.injEq] at h
    obtain ⟨h1, _⟩ := h
    subst h1
    exact le_refl _
  | cons vx rest ih =>
    intro cur rev final r h
    simp only [reviseLoop] at h
    cases hhc : hasCorresponding vx i j ydom with
    | none => rw [hhc] at h; simp at h
    | some b =>
      rw [hhc] at h
      cases b with
      | true => exact ih cur rev final r h
      | false =>
        have h1 := ih (cur.erase vx) true final r h
        have h2 : (cur.erase vx).length ≤ cur.length :=
          (List.erase_sublist vx cur).length_le
        omega

theorem reviseLoop_rev_true (i j : Nat) (ydom : List Word) :
    ∀ (copy cur : List Word) (final : List Word) (r : Bool),
      reviseLoop i j ydom copy cur true = some (final, r) → r = true := by
  intro copy
  induction copy with
  | nil =>
    intro cur final r h
    simp only [reviseLoop, Option.some.injEq, Prod.mk.injEq] at h
    exact h.2.symm
  | cons vx rest ih =>
    intro cur final r h
    simp only [reviseLoop] at h
    cases hhc : hasCorresponding vx i j ydom with
    | none => rw [hhc] at h; simp at h
    | some b =>
      rw [hhc] at h
      cases b with
      | true => exact ih cur final r h
      | false => exact ih (cur.erase vx) final r h

theorem reviseLoop_eq_of_false (i j : Nat) (ydom : List Word) :
    ∀ (copy cur : List Word) (rev : Bool) (final : List Word),
      reviseLoop i j ydom copy cur rev = some (final, false) →
      final = cur ∧ rev = false := by
  intro copy
  induction copy with
  | nil =>
    intro cur rev final h
    simp only [reviseLoop, Option.some.injEq, Prod.mk.injEq] at h
    exact ⟨h.1.symm, h.2⟩
  | cons vx rest ih =>
    intro cur rev final h
    simp only [reviseLoop] at h
    cases hhc : hasCorresponding vx i j ydom with
    | none => rw [hhc] at h; simp at h
    | some b =>
      rw [hhc] at h
      cases b with
      | true => exact ih cur rev final h
      | false =>
        have := reviseLoop_rev_true i j ydom rest (cur.erase vx) final false h
        exact absurd this (by simp)

theorem filter_erase_of_neg (p : Word → Bool) (a : Word) (hp : p a = false) :
    ∀ l : List Word, (l.erase a).filter p = l.filter p := by
  intro l
  induction l with
  | nil => rfl
  | cons b t ih =>
    rw [List.erase_cons]
    by_cases hb : b = a
    · subst hb
      simp only [beq_self_eq_true, if_true]
      rw [List.filter_cons, hp]
      simp
    · have hba : (b == a) = false := by simp [hb]
      rw [hba]
      simp only [Bool.false_eq_true, if_false]
      rw [List.filter_cons, List.filter_cons, ih]

theorem reviseLoop_filter (i j : Nat) (ydom : List Word) :
    ∀ (copy cur : List Word) (rev : Bool) (final : List Word) (r : Bool),
      (∀ w : Word, hasCorresponding w i j ydom ≠ some true → cur.count w = copy.count w) →
      reviseLoop i j ydom copy cur rev = some (final, r) →
      final = cur.filter (fun w => hasSupportB i j ydom w) := by
  intro copy
  induction copy with
  | nil =>
    intro cur rev final r hinv h
    simp only [reviseLoop, Option.some.injEq, Prod.mk.injEq] at h
    obtain ⟨h1, _⟩ := h
    subst h1
    symm
    apply List.filter_eq_self.mpr
    intro w hw
    by_contra hpw
    have hbad : hasCorresponding w i j ydom ≠ some true := by
      intro htrue
      exact hpw (hasCorresponding_true_suppB w i j ydom htrue)
    have hc0 := hinv w hbad
    simp only [List.count_nil] at hc0
    have hmem : 0 < cur.count w := List.count_pos_iff.mpr hw
    omega
  | cons vx rest ih =>
    intro cur rev final r hinv h
    simp only [reviseLoop] at h
    cases hhc : hasCorresponding vx i j ydom with
    | none => rw [hhc] at h; simp at h
    | some b =>
      rw [hhc] at h
      cases b with
      | true =>
        apply ih cur rev final r ?_ h
        intro w hbad
        have hne : w ≠ vx := by
          intro he; subst he; exact hbad hhc
        have := hinv w hbad
        rwa [List.count_cons_of_ne hne] at this
      | false =>
        have hbadvx : hasCorresponding vx i j ydom ≠ some true := by
          simp [hhc]
        have hcnt := hinv vx hbadvx
        rw [List.count_cons_self] at hcnt
        have hmem : vx ∈ cur := by
          apply List.count_pos_iff.mp
          omega
        have hrec := ih (cur.erase vx) true final r ?_ h
        · rw [hrec]
          exact filter_erase_of_neg _ vx
            (hasCorresponding_false_suppB vx i j ydom hhc) cur
        · intro w hbad
          by_cases hwe : w = vx
          · subst hwe
            rw [List.count_erase_self]
            omega
          · rw [List.count_erase_of_ne hwe]
            rw [hinv w hbad, List.count_cons_of_ne hwe]

theorem reviseLoop_shrinks (i j : Nat) (ydom : List Word) :
    ∀ (copy cur : List Word) (rev : Bool) (final : List Word),
      (∀ w : Word, hasCorresponding w i j ydom ≠ some true → cur.count w = copy.count w) →
      reviseLoop i j ydom copy cur rev = some (final, true) →
      rev = false →
      final.length < cur.length := by
  intro copy
  induction copy with
  | nil =>
    intro cur rev final hinv h hrev
    subst hrev
    simp only [reviseLoop, Option.some.injEq, Prod.mk.injEq] at h
    exact absurd h.2 (by simp)
  | cons vx rest ih =>
    intro cur rev final hinv h hrev
    simp only [reviseLoop] at h
    cases hhc : hasCorresponding vx i j ydom with
    | none => rw [hhc] at h; simp at h
    | some b =>
      rw [hhc] at h
      cases b with
      | true =>
        apply ih cur rev final ?_ h hrev
        intro w hbad
        have hne : w ≠ vx := by
          intro he; subst he; exact hbad hhc
        have := hinv w hbad
        rwa [List.count_cons_of_ne hne] at this
      | false =>
        have hbadvx : hasCorresponding vx i j ydom ≠ some true := by
          simp [hhc]
        have hcnt := hinv vx hbadvx
        rw [List.count_cons_self] at hcnt
        have hmem : vx ∈ cur := by
          apply List.count_pos_iff.mp
          omega
        have h1 := reviseLoop_length_le i j ydom rest (cur.erase vx) true final true h
        have h2 : (cur.erase vx).length = cur.length - 1 :=
          List.length_erase_of_mem hmem
        have h3 : 0 < cur.length := List.length_pos_of_mem hmem
        omega

theorem revise_no_overlap (c : Crossword) (d : Domains) (x y : Variable)
    (h : c.overlaps x y = none) : revise c d x y = some (d, false) := by
  simp [revise, h]

theorem revise_spec (c : Crossword) (d : Domains) (x y : Variable)
    (i j : Nat) (xdom ydom : List Word) (d2 : Domains) (r : Bool)
    (hov : c.overlaps x y = some (i, j))
    (hx : lookupV d x = some xdom) (hy : lookupV d y = some ydom)
    (h : revise c d x y = some (d2, r)) :
    d2 = updateV d x (xdom.filter (fun w => hasSupportB i j ydom w)) ∧
    (r = true ↔ xdom.filter (fun w => hasSupportB i j ydom w) ≠ xdom) ∧
    (∀ w ∈ xdom, hasCorresponding w i j ydom ≠ none) := by
  simp only [revise, hov, hx, hy] at h
  cases hrl : reviseLoop i j ydom xdom xdom false with
  | none => rw [hrl] at h; simp at h
  | some p =>
    obtain ⟨cur, rev⟩ := p
    rw [hrl] at h
    simp only [Option.some.injEq, Prod.mk.injEq] at h
    obtain ⟨hd2, hr⟩ := h
    have hfil : cur = xdom.filter (fun w => hasSupportB i j ydom w) :=
      reviseLoop_filter i j ydom xdom xdom false cur rev (fun _ _ => rfl) hrl
    refine ⟨?_, ?_, ?_⟩
    · rw [← hd2, hfil]
    · constructor
      · intro hrt
        subst hrt
        intro heq
        have := reviseLoop_shrinks i j ydom xdom xdom false cur (fun _ _ => rfl)
          (by rw [hrl, hr]) rfl
        rw [hfil, heq] at this
        omega
      · intro hne
        by_contra hrf
        have hrev : rev = false := by
          cases hrw : rev
          · rfl
          · rw [← hr] at hrf; exact absurd hrw (by simp [hrf])
        obtain ⟨hcur, _⟩ := reviseLoop_eq_of_false i j ydom xdom xdom false cur
          (by rw [hrl, hrev])
        exact hne (by rw [← hfil, hcur])
    · exact reviseLoop_all_some i j ydom xdom xdom false (cur, rev) hrl

theorem revise_some_cases (c : Crossword) (d : Domains) (x y : Variable)
    (d2 : Domains) (r : Bool) (h : revise c d x y = some (d2, r)) :
    (c.overlaps x y = none ∧ d2 = d ∧ r = false) ∨
    (∃ i j xdom ydom cur, c.overlaps x y = some (i, j) ∧
      lookupV d x = some xdom ∧ lookupV d y = some ydom ∧
      cur = xdom.filter (fun w => hasSupportB i j ydom w) ∧
      d2 = updateV d x cur) := by
  cases hov : c.overlaps x y with
  | none =>
    rw [revise_no_overlap c d x y hov] at h
    simp only [Option.some.injEq, Prod.mk.injEq] at h
    exact Or.inl ⟨rfl, h.1.symm, h.2.symm⟩
  | some p =>
    obtain ⟨i, j⟩ := p
    cases hx : lookupV d x with
    | none =>
      simp only [revise, hov, hx] at h
      exact absurd h (by simp)
    | some xdom =>
      cases hy : lookupV d y with
      | none =>
        simp only [revise, hov, hx, hy] at h
        exact absurd h (by simp)
      | some ydom =>
        obtain ⟨hd2, _, _⟩ := revise_spec c d x y i j xdom ydom d2 r hov hx hy h
        exact Or.inr ⟨i, j, xdom, ydom, _, rfl, rfl, rfl, rfl, hd2⟩

theorem revise_frame (c : Crossword) (d : Domains) (x y : Variable)
    (d2 : Domains) (r : Bool) (h : revise c d x y = some (d2, r))
    (z : Variable) (hz : z ≠ x) : lookupV d2 z = lookupV d z := by
  rcases revise_some_cases c d x y d2 r h with ⟨_, hd, _⟩ | ⟨i, j, xdom, ydom, cur, _, _, _, _, hd⟩
  · rw [hd]
  · rw [hd]
    exact lookupV_updateV_ne d x cur z hz

theorem revise_keys (c : Crossword) (d : Domains) (x y : Variable)
    (d2 : Domains) (r : Bool) (h : revise c d x y = some (d2, r)) :
    d2.map Prod.fst = d.map Prod.fst := by
  rcases revise_some_cases c d x y d2 r h with ⟨_, hd, _⟩ | ⟨i, j, xdom, ydom, cur, _, _, _, _, hd⟩
  · rw [hd]
  · rw [hd, keys_updateV]

theorem revise_false_eq (c : Crossword) (d : Domains) (x y : Variable)
    (d2 : Domains) (h : revise c d x y = some (d2, false)) : d2 = d := by
  cases hov : c.overlaps x y with
  | none =>
    rw [revise_no_overlap c d x y hov] at h
    simp only [Option.some.injEq, Prod.mk.injEq] at h
    exact h.1.symm
  | some p =>
    obtain ⟨i, j⟩ := p
    cases hx : lookupV d x with
    | none =>
      simp only [revise, hov, hx] at h
      exact absurd h (by simp)
    | some xdom =>
      cases hy : lookupV d y with
      | none =>
        simp only [revise, hov, hx, hy] at h
        exact absurd h (by simp)
      | some ydom =>
        simp only [revise, hov, hx, hy] at h
        cases hrl : reviseLoop i j ydom xdom xdom false with
        | none => rw [hrl] at h; simp at h
        | some p2 =>
          obtain ⟨cur, rev⟩ := p2
          rw [hrl] at h
          simp only [Option.some.injEq, Prod.mk.injEq] at h
          obtain ⟨hd2, hr⟩ := h
          obtain ⟨hcur, _⟩ := reviseLoop_eq_of_false i j ydom xdom xdom false cur
            (by rw [hrl, hr])
          rw [← hd2, hcur]
          exact updateV_self_eq d x xdom hx

theorem revise_true_shrinks (c : Crossword) (d : Domains) (x y : Variable)
    (d2 : Domains) (h : revise c d x y = some (d2, true)) :
    totalSize d2 < totalSize d := by
  cases hov : c.overlaps x y with
  | none =>
    rw [revise_no_overlap c d x y hov] at h
    simp at h
  | some p =>
    obtain ⟨i, j⟩ := p
    cases hx : lookupV d x with
    | none =>
      simp only [revise, hov, hx] at h
      exact absurd h (by simp)
    | some xdom =>
      cases hy : lookupV d y with
      | none =>
        simp only [revise, hov, hx, hy] at h
        exact absurd h (by simp)
      | some ydom =>
        simp only [revise, hov, hx, hy] at h
        cases hrl : reviseLoop i j ydom xdom xdom false with
        | none => rw [hrl] at h; simp at h
        | some p2 =>
          obtain ⟨cur, rev⟩ := p2
          rw [hrl] at h
          simp only [Option.some.injEq, Prod.mk.injEq] at h
          obtain ⟨hd2, hr⟩ := h
          have hlt : cur.length < xdom.length :=
            reviseLoop_shrinks i j ydom xdom xdom false cur (fun _ _ => rfl)
              (by rw [hrl, hr]) rfl
          rw [← hd2]
          exact totalSize_updateV_lt d x xdom cur hx hlt

theorem revise_size_le (c : Crossword) (d : Domains) (x y : Variable)
    (d2 : Domains) (r : Bool) (h : revise c d x y = some (d2, r)) :
    totalSize d2 ≤ totalSize d := by
  cases r with
  | false => rw [revise_false_eq c d x y d2 h]
  | true => exact le_of_lt (revise_true_shrinks c d x y d2 h)

theorem revise_subset (c : Crossword) (d : Domains) (x y : Variable)
    (d2 : Domains) (r : Bool) (h : revise c d x y = some (d2, r)) :
    ∀ z ws2, lookupV d2 z = some ws2 →
      ∃ ws1, lookupV d z = some ws1 ∧ ∀ w ∈ ws2, w ∈ ws1 := by
  intro z ws2 hz
  by_cases hzx : z = x
  · rcases revise_some_cases c d x y d2 r h with ⟨_, hd, _⟩ |
        ⟨i, j, xdom, ydom, cur, _, hx, _, hcur, hd⟩
    · subst hd
      exact ⟨ws2, hz, fun w hw => hw⟩
    · subst hd
      rw [hzx, lookupV_updateV_self d x cur xdom hx] at hz
      obtain rfl : cur = ws2 := Option.some.inj hz
      refine ⟨xdom, ?_, ?_⟩
      · rw [hzx]; exact hx
      · intro w hw
        rw [hcur] at hw
        exact List.mem_of_mem_filter hw
  · rw [revise_frame c d x y d2 r h z hzx] at hz
    exact ⟨ws2, hz, fun w hw => hw⟩

def vA : Variable := Variable.mk 0 0 Direction.across 2

def vB : Variable := Variable.mk 0 0 Direction.down 2

/-- An overlap relation for a two-slot puzzle: `(i, j)` between `va` and
`vb`, `(j, i)` in the opposite direction, `None` elsewhere. -/
def twoSlotOverlaps (va vb : Variable) (i j : Nat) : Variable → Variable → Option (Nat × Nat) :=
  fun a b =>
    if a = va ∧ b = vb then some (i, j)
    else if a = vb ∧ b = va then some (j, i) else none

theorem twoSlotOverlaps_vars (va vb : Variable) (i j : Nat) :
    ∀ x y, (twoSlotOverlaps va vb i j x y).isSome → x ∈ [va, vb] ∧ y ∈ [va, vb] := by
  intro x y h
  rw [twoSlotOverlaps] at h
  by_cases h1 : x = va ∧ y = vb
  · obtain ⟨rfl, rfl⟩ := h1
    exact ⟨by simp, by simp⟩
  · rw [if_neg h1] at h
    by_cases h2 : x = vb ∧ y = va
    · obtain ⟨rfl, rfl⟩ := h2
      exact ⟨by simp, by simp⟩
    · rw [if_neg h2] at h
      simp at h

theorem twoSlotOverlaps_irr (va vb : Variable) (i j : Nat) (hne : va ≠ vb) :
    ∀ v, twoSlotOverlaps va vb i j v v = none := by
  intro v
  rw [twoSlotOverlaps]
  rw [if_neg, if_neg]
  · rintro ⟨h1, h2⟩
    rw [h1] at h2
    exact hne h2.symm
  · rintro ⟨h1, h2⟩
    rw [h1] at h2
    exact hne h2

theorem twoSlotOverlaps_symm (va vb : Variable) (i j : Nat) (hne : va ≠ vb) :
    ∀ x y i2 j2, twoSlotOverlaps va vb i j x y = some (i2, j2) →
      twoSlotOverlaps va vb i j y x = some (j2, i2) := by
  intro x y i2 j2 h
  rw [twoSlotOverlaps] at h ⊢
  by_cases h1 : x = va ∧ y = vb
  · obtain ⟨rfl, rfl⟩ := h1
    rw [if_pos ⟨rfl, rfl⟩] at h
    obtain ⟨rfl, rfl⟩ : i = i2 ∧ j = j2 := by
      have := Option.some.inj h
      exact ⟨congrArg Prod.fst this, congrArg Prod.snd this⟩
    rw [if_neg, if_pos ⟨rfl, rfl⟩]
    rintro ⟨h2, _⟩
    exact hne h2.symm
  · rw [if_neg h1] at h
    by_cases h2 : x = vb ∧ y = va
    · obtain ⟨rfl, rfl⟩ := h2
      rw [if_pos ⟨rfl, rfl⟩] at h
      obtain ⟨rfl, rfl⟩ : j = i2 ∧ i = j2 := by
        have := Option.some.inj h
        exact ⟨congrArg Prod.fst this, congrArg Prod.snd this⟩
      rw [if_pos ⟨rfl, rfl⟩]
    · rw [if_neg h2] at h
      exact absurd h (by simp)

/-- A two-slot puzzle whose slots cross with overlap offsets `(1, 1)`. -/
def cexCross : Crossword :=
  Crossword.mk [vA, vB] [['a', 'b'], ['c']] (twoSlotOverlaps vA vB 1 1)

def cexDoms : Domains := [(vA, [['a', 'b']]), (vB, [['c']])]

/-- Claim C5 counterexample: the claim asserts `revise` runs without
error whenever either domain has at most one element, with no
precondition on word lengths versus overlap offsets.  Here both domains
are singletons, the overlap is `(1, 1)`, and the one word in `y`'s
domain has length 1, so `val_y[overlap_y]` raises `IndexError`
(modelled: `revise` returns `none`). -/
theorem revise_safety_cex :
    cexCross.overlaps vA vB = some (1, 1) ∧
    lookupV cexDoms vA = some [['a', 'b']] ∧
    lookupV cexDoms vB = some [['c']] ∧
    revise cexCross cexDoms vA vB = none := by decide

/-- Claim C5 (amended): for slots `x ≠ y` with a defined overlap
`(i, j)`, `revise` executes without error provided every word in `x`'s
domain is indexable at `i` and every word in `y`'s domain is indexable
at `j` (no constraint on the domains' sizes); and when `y`'s domain is
empty it removes every word from `x`'s domain and returns True exactly
when `x`'s domain was nonempty. -/
theorem revise_safety_amended (c : Crossword) (d : Domains) (x y : Variable)
    (i j : Nat) (xdom ydom : List Word)
    (hov : c.overlaps x y = some (i, j)) (_hxy : x ≠ y)
    (hx : lookupV d x = some xdom) (hy : lookupV d y = some ydom) :
    ((∀ w ∈ xdom, i < w.length) → (∀ w2 ∈ ydom, j < w2.length) →
        ∃ d2 r, revise c d x y = some (d2, r)) ∧
    (ydom = [] → revise c d x y = some (updateV d x [], !xdom.isEmpty)) := by
  constructor
  · intro hxl hyl
    have hloop : ∀ (copy cur : List Word) (rev : Bool),
        (∀ w ∈ copy, i < w.length) →
        ∃ p, reviseLoop i j ydom copy cur rev = some p := by
      intro copy
      induction copy with
      | nil => intro cur rev _; exact ⟨(cur, rev), rfl⟩
      | cons vx rest ih =>
        intro cur rev hcl
        obtain ⟨b, hb⟩ := hasCorresponding_isSome vx i j ydom
          (fun _ => hcl vx (by simp)) hyl
        cases b with
        | true =>
          obtain ⟨p, hp⟩ := ih cur rev (fun w hw => hcl w (by simp [hw]))
          exact ⟨p, by simp only [reviseLoop, hb]; exact hp⟩
        | false =>
          obtain ⟨p, hp⟩ := ih (cur.erase vx) true (fun w hw => hcl w (by simp [hw]))
          exact ⟨p, by simp only [reviseLoop, hb]; exact hp⟩
    obtain ⟨p, hp⟩ := hloop xdom xdom false hxl
    exact ⟨updateV d x p.1, p.2, by simp only [revise, hov, hx, hy, hp]⟩
  · intro hyd
    subst hyd
    have hloop : ∀ (copy cur : List Word) (rev : Bool),
        ∃ p, reviseLoop i j ([] : List Word) copy cur rev = some p := by
      intro copy
      induction copy with
      | nil => intro cur rev; exact ⟨(cur, rev), rfl⟩
      | cons vx rest ih =>
        intro cur rev
        obtain ⟨p, hp⟩ := ih (cur.erase vx) true
        exact ⟨p, by simp only [reviseLoop, hasCorresponding]; exact hp⟩
    obtain ⟨⟨cur, rev⟩, hp⟩ := hloop xdom xdom false
    have h : revise c d x y = some (updateV d x cur, rev) := by
      simp only [revise, hov, hx, hy, hp]
    obtain ⟨hd2, hiff, _⟩ := revise_spec c d x y i j xdom [] _ rev hov hx hy h
    have hfil : xdom.filter (fun w => hasSupportB i j ([] : List Word) w) = [] := by
      apply List.filter_eq_nil_iff.mpr
      intro w _
      simp [hasSupportB]
    have hcur : cur = [] := by
      have := reviseLoop_filter i j ([] : List Word) xdom xdom false cur rev
        (fun _ _ => rfl) hp
      rw [this, hfil]
    subst hcur
    have hrev : rev = !xdom.isEmpty := by
      rw [hfil] at hiff
      cases xdom with
      | nil =>
        simp only [List.isEmpty_nil, Bool.not_true]
        cases hrw : rev
        · rfl
        · exact absurd rfl (hiff.mp hrw)
      | cons a t =>
        simp only [List.isEmpty_cons, Bool.not_false]
        exact hiff.mpr (by simp)
    rw [← hrev]
    exact h

/-- A two-slot puzzle crossing at offsets `(0, 0)`, used as a concrete
witness input. -/
def wexCross : Crossword :=
  Crossword.mk [vA, vB] [['a'], ['b']] (twoSlotOverlaps vA vB 0 0)

def wexDoms : Domains := [(vA, [['a'], ['b']]), (vB, [['a']])]

def wexDomsEmptyY : Domains := [(vA, [['a', 'b']]), (vB, [])]

/-- Witness for the amended C5 on a concrete store with an empty
`y`-domain. -/
theorem revise_safety_amended_witness :
    revise cexCross wexDomsEmptyY vA vB = some (updateV wexDomsEmptyY vA [], true) := by
  have h := (revise_safety_amended cexCross wexDomsEmptyY vA vB 1 1 [['a', 'b']] []
    (by decide) (by decide) (by decide) (by decide)).2 rfl
  simpa using h

/-- Claim C4: the Revision Step contract.  With no overlap, `revise` is a
no-op returning `false`.  With overlap `(i, j)` between distinct slots,
it succeeds exactly by replacing `x`'s domain with the words that have a
supporting word in `y`'s domain (removing exactly the unsupported ones),
leaves every other slot's domain (in particular `y`'s) unchanged, and
returns `true` iff at least one word was removed. -/
theorem revise_contract (c : Crossword) (d : Domains) (x y : Variable) :
    (c.overlaps x y = none → revise c d x y = some (d, false)) ∧
    (∀ i j xdom ydom d2 r,
      c.overlaps x y = some (i, j) → x ≠ y →
      lookupV d x = some xdom → lookupV d y = some ydom →
      revise c d x y = some (d2, r) →
      lookupV d2 x = some (xdom.filter (fun w => hasSupportB i j ydom w)) ∧
      (∀ z, z ≠ x → lookupV d2 z = lookupV d z) ∧
      (r = true ↔ xdom.filter (fun w => hasSupportB i j ydom w) ≠ xdom)) := by
  constructor
  · exact revise_no_overlap c d x y
  · intro i j xdom ydom d2 r hov _hxy hx hy h
    obtain ⟨hd2, hiff, _⟩ := revise_spec c d x y i j xdom ydom d2 r hov hx hy h
    refine ⟨?_, ?_, hiff⟩
    · rw [hd2]
      exact lookupV_updateV_self d x _ xdom hx
    · intro z hz
      exact revise_frame c d x y d2 r h z hz

/-- Witness for C4 on a concrete store where one word is removed. -/
theorem revise_contract_witness :
    lookupV (updateV wexDoms vA [['a']]) vA
        = some (List.filter (fun w => hasSupportB 0 0 [['a']] w) [['a'], ['b']]) ∧
    lookupV (updateV wexDoms vA [['a']]) vB = lookupV wexDoms vB := by
  have h := (revise_contract wexCross wexDoms vA vB).2 0 0 [['a'], ['b']] [['a']]
      (updateV wexDoms vA [['a']]) true (by decide) (by decide) (by decide) (by decide)
      (by decide)
  exact ⟨h.1, h.2.1 vB (by decide)⟩

/-- The arcs enqueued after a successful revision of `x` against `y`:
`(z, x)` for every neighbor `z` of `x` other than `y`.  The worklist is
kept reversed relative to the Python list (`queue.pop()` takes the last
element, so the head here is Python's tail; `queue.append` conses), hence
the `reverse`. -/
def requeue (c : Crossword) (x y : Variable) : List (Variable × Variable) :=
  (((neighbors c x).filter (fun z => decide (z ≠ y))).map (fun z => (z, x))).reverse

/-- The `while queue` loop of `ac3`, with an explicit step budget
(`fuel`); `ac3Fuel_stable` below shows any budget above `ac3Measure` gives
the same result, so the budget is an artifact of totality, not semantics.
Pop an arc; revise; on a revision, fail if `x`'s domain is now empty,
otherwise enqueue the affected arcs; `none` propagates an exception
raised inside `revise` or by the `self.domains[x]` lookup. -/
def ac3Fuel (c : Crossword) : Nat → Domains → List (Variable × Variable) → Option (Bool × Domains)
  | 0, _, _ => none
  | _ + 1, d, [] => some (true, d)
  | fuel + 1, d, (x, y) :: rest =>
    match revise c d x y with
    | none => none
    | some (d2, revised) =>
      if revised then
        match lookupV d2 x with
        | none => none
        | some [] => some (false, d2)
        | some (_ :: _) => ac3Fuel c fuel d2 (requeue c x y ++ rest)
      else ac3Fuel c fuel d2 rest

/-- Decrease measure of the AC-3 loop: lexicographic combination of the
total domain size and the queue length. -/
def ac3Measure (c : Crossword) (d : Domains) (q : List (Variable × Variable)) : Nat :=
  totalSize d * (c.vars.length + 1) + q.length

/-- `CrosswordCreator.ac3(arcs=None)`: run the loop on the given arcs (or
all arcs of the problem) with a provably sufficient budget. -/
def ac3 (c : Crossword) (d : Domains) (arcs : Option (List (Variable × Variable))) :
    Option (Bool × Domains) :=
  ac3Fuel c (ac3Measure c d ((arcs.getD (allArcs c)).reverse) + 1) d
    ((arcs.getD (allArcs c)).reverse)

theorem requeue_length_le (c : Crossword) (x y : Variable) :
    (requeue c x y).length ≤ c.vars.length := by
  rw [requeue, List.length_reverse, List.length_map]
  calc ((neighbors c x).filter (fun z => decide (z ≠ y))).length
      ≤ (neighbors c x).length := List.length_filter_le _ _
    _ ≤ c.vars.length := List.length_filter_le _ _

theorem ac3Fuel_stable (c : Crossword) :
    ∀ (n : Nat) (d : Domains) (q : List (Variable × Variable)) (m : Nat),
      ac3Measure c d q < n → ac3Measure c d q < m →
      ac3Fuel c n d q = ac3Fuel c m d q := by
  intro n
  induction n using Nat.strong_induction_on with
  | _ n ih =>
    intro d q m hn hm
    cases n with
    | zero => omega
    | succ n1 =>
      cases m with
      | zero => omega
      | succ m1 =>
        cases q with
        | nil => rfl
        | cons a rest =>
          obtain ⟨x, y⟩ := a
          simp only [ac3Fuel]
          cases hrev : revise c d x y with
          | none => rfl
          | some p =>
            obtain ⟨d2, revised⟩ := p
            cases revised with
            | false =>
              simp only [Bool.false_eq_true, if_false]
              have hd2 : d2 = d := revise_false_eq c d x y d2 hrev
              subst hd2
              apply ih n1 (by omega) d2 rest m1 <;>
                · simp only [ac3Measure, List.length_cons] at hn hm ⊢
                  omega
            | true =>
              simp only [if_true]
              cases hlk : lookupV d2 x with
              | none => rfl
              | some ws =>
                cases ws with
                | nil => rfl
                | cons w ws2 =>
                  have hts : totalSize d2 < totalSize d :=
                    revise_true_shrinks c d x y d2 hrev
                  have hmul : totalSize d2 * (c.vars.length + 1) + (c.vars.length + 1)
                      ≤ totalSize d * (c.vars.length + 1) := by
                    have h1 : totalSize d2 + 1 ≤ totalSize d := hts
                    calc totalSize d2 * (c.vars.length + 1) + (c.vars.length + 1)
                        = (totalSize d2 + 1) * (c.vars.length + 1) := by ring
                      _ ≤ totalSize d * (c.vars.length + 1) :=
                          Nat.mul_le_mul_right _ h1
                  have hrq := requeue_length_le c x y
                  apply ih n1 (by omega) d2 (requeue c x y ++ rest) m1 <;>
                    · simp only [ac3Measure, List.length_cons, List.length_append] at hn hm ⊢
                      omega

/-- Claim C8: AC-3 termination.  For every crossword, every finite Domain
Store and every finite initial arc queue, the `while` loop of `ac3`
stabilizes after finitely many steps: beyond some finite step budget the
loop's result no longer changes, and it equals what `ac3` returns. -/
theorem ac3_terminates (c : Crossword) (d : Domains) (arcs : Option (List (Variable × Variable))) :
    ∃ n, ∀ m, n ≤ m →
      ac3Fuel c m d ((arcs.getD (allArcs c)).reverse) = ac3 c d arcs := by
  refine ⟨ac3Measure c d ((arcs.getD (allArcs c)).reverse) + 1, fun m hm => ?_⟩
  exact ac3Fuel_stable c m d ((arcs.getD (allArcs c)).reverse) _ (by omega) (by omega)

/-- Witness for C8 at a concrete input. -/
theorem ac3_terminates_witness :
    ∃ n, ∀ m, n ≤ m →
      ac3Fuel cexCross m cexDoms (((some [(vA, vB)]).getD (allArcs cexCross)).reverse)
        = ac3 cexCross cexDoms (some [(vA, vB)]) :=
  ac3_terminates cexCross cexDoms (some [(vA, vB)])

def c3Doms : Domains := [(vA, []), (vB, [])]

/-- Claim C3 counterexample: the popped pair `(vA, vB)` has a defined
overlap and after applying the Revision Step `vA`'s domain is empty (it
already was, so the step reports no modification), yet `ac3` — run on the
default queue of all arcs — returns True rather than False: the emptiness
check is guarded by `if self.revise(x, y)`. -/
theorem ac3_empty_domain_cex :
    (wexCross.overlaps vA vB).isSome ∧
    revise wexCross c3Doms vA vB = some (c3Doms, false) ∧
    lookupV c3Doms vA = some [] ∧
    ac3 wexCross c3Doms none = some (true, c3Doms) := by decide

def c3Doms2 : Domains := [(vA, [['a']]), (vB, [['b']])]

def c3Doms2After : Domains := [(vA, []), (vB, [['b']])]

/-- Claim C3 (amended): if the Revision Step modifies `x`'s domain
(returns True) and leaves it empty, `ac3` returns False immediately with
the store as revised — the remaining queue entries are dropped and
nothing is enqueued; and `ac3`'s loop returns False only when the domain
of the just-revised slot is empty at that point. -/
theorem ac3_failure_short_circuit (c : Crossword) :
    (∀ d x y rest d2 fuel,
        revise c d x y = some (d2, true) → lookupV d2 x = some [] →
        ac3Fuel c (fuel + 1) d ((x, y) :: rest) = some (false, d2)) ∧
    (∀ fuel d q dfin, ac3Fuel c fuel d q = some (false, dfin) →
        ∃ x, lookupV dfin x = some []) := by
  constructor
  · intro d x y rest d2 fuel hrev hlk
    simp only [ac3Fuel, hrev, if_true, hlk]
  · intro fuel
    induction fuel with
    | zero => intro d q dfin h; exact absurd h (by simp [ac3Fuel])
    | succ n ih =>
      intro d q dfin h
      cases q with
      | nil =>
        simp only [ac3Fuel, Option.some.injEq, Prod.mk.injEq] at h
        exact absurd h.1 (by simp)
      | cons a rest =>
        obtain ⟨x, y⟩ := a
        simp only [ac3Fuel] at h
        cases hrev : revise c d x y with
        | none => rw [hrev] at h; simp at h
        | some p =>
          obtain ⟨d2, revised⟩ := p
          rw [hrev] at h
          cases revised with
          | false =>
            simp only [Bool.false_eq_true, if_false] at h
            exact ih d2 rest dfin h
          | true =>
            simp only [if_true] at h
            cases hlk : lookupV d2 x with
            | none => rw [hlk] at h; simp at h
            | some ws =>
              rw [hlk] at h
              cases ws with
              | nil =>
                simp only [Option.some.injEq, Prod.mk.injEq] at h
                exact ⟨x, by rw [h.2] at hlk; exact hlk⟩
              | cons w ws2 =>
                exact ih d2 (requeue c x y ++ rest) dfin h

/-- Witness for the amended C3: a revision empties `vA`'s domain and the
loop stops at once, with a further queue entry left unprocessed. -/
theorem ac3_failure_short_circuit_witness :
    ac3Fuel wexCross 5 c3Doms2 [(vA, vB), (vB, vA)] = some (false, c3Doms2After) :=
  (ac3_failure_short_circuit wexCross).1 c3Doms2 vA vB [(vB, vA)] c3Doms2After 4
    (by decide) (by decide)

/-- Two words agree at overlap offsets `(i, j)`: both positions are in
range and carry the same character. -/
def agreeAt (i j : Nat) (w1 w2 : Word) : Prop :=
  ∃ ch, w1[i]? = some ch ∧ w2[j]? = some ch

/-- The arc `(x, y)` is consistent in store `d`: every word of `x`'s
domain has a supporting word in `y`'s domain at the overlap offsets. -/
def arcOK (c : Crossword) (d : Domains) (x y : Variable) : Prop :=
  ∀ i j, c.overlaps x y = some (i, j) →
    ∀ xdom, lookupV d x = some xdom →
      ∀ w ∈ xdom, ∃ ydom, lookupV d y = some ydom ∧ ∃ w2 ∈ ydom, agreeAt i j w w2

theorem mem_allArcs (c : Crossword) (a b : Variable) :
    (a, b) ∈ allArcs c ↔ a ∈ c.vars ∧ b ∈ c.vars ∧ b ≠ a := by
  simp only [allArcs, List.mem_flatMap, List.mem_map, List.mem_filter]
  constructor
  · rintro ⟨a0, ha0, b0, ⟨hb0v, hb0ne⟩, heq⟩
    obtain ⟨h1, h2⟩ := Prod.mk.injEq a0 b0 a b ▸ heq
    subst h1
    subst h2
    exact ⟨ha0, hb0v, by simpa using hb0ne⟩
  · rintro ⟨ha, hb, hne⟩
    exact ⟨a, ha, b, ⟨hb, by simpa using hne⟩, rfl⟩

theorem mem_neighbors (c : Crossword) (x z : Variable) :
    z ∈ neighbors c x ↔ z ∈ c.vars ∧ z ≠ x ∧ (c.overlaps z x).isSome := by
  simp only [neighbors, List.mem_filter, Bool.and_eq_true, decide_eq_true_eq]

theorem mem_requeue (c : Crossword) (x y a b : Variable) :
    (a, b) ∈ requeue c x y ↔ b = x ∧ a ∈ neighbors c x ∧ a ≠ y := by
  simp only [requeue, List.mem_reverse, List.mem_map, List.mem_filter,
    decide_eq_true_eq]
  constructor
  · rintro ⟨z, ⟨hz, hzy⟩, heq⟩
    obtain ⟨h1, h2⟩ := Prod.mk.injEq z x a b ▸ heq
    subst h1
    subst h2
    exact ⟨rfl, hz, hzy⟩
  · rintro ⟨rfl, ha, hay⟩
    exact ⟨a, ⟨ha, hay⟩, rfl⟩

theorem ac3Fuel_arcOK (c : Crossword)
    (hvars : ∀ x y, (c.overlaps x y).isSome → x ∈ c.vars ∧ y ∈ c.vars)
    (hirr : ∀ v : Variable, c.overlaps v v = none)
    (hsymm : ∀ x y i j, c.overlaps x y = some (i, j) → c.overlaps y x = some (j, i)) :
    ∀ (fuel : Nat) (d : Domains) (q : List (Variable × Variable)) (dfin : Domains),
      (∀ x y, (c.overlaps x y).isSome → (x, y) ∈ q ∨ arcOK c d x y) →
      ac3Fuel c fuel d q = some (true, dfin) →
      ∀ x y, (c.overlaps x y).isSome → arcOK c dfin x y := by
  intro fuel
  induction fuel with
  | zero =>
    intro d q dfin _ h
    exact absurd h (by simp [ac3Fuel])
  | succ n ih =>
    intro d q dfin hinv h
    cases q with
    | nil =>
      simp only [ac3Fuel, Option.some.injEq, Prod.mk.injEq] at h
      obtain ⟨_, hd⟩ := h
      subst hd
      intro x y hov
      rcases hinv x y hov with hmem | hok
      · exact absurd hmem (by simp)
      · exact hok
    | cons arc rest =>
      obtain ⟨x, y⟩ := arc
      simp only [ac3Fuel] at h
      cases hrev : revise c d x y with
      | none => rw [hrev] at h; simp at h
      | some p =>
        obtain ⟨d2, revised⟩ := p
        rw [hrev] at h
        cases revised with
        | false =>
          simp only [Bool.false_eq_true, if_false] at h
          have hd2 : d2 = d := revise_false_eq c d x y d2 hrev
          subst hd2
          apply ih d2 rest dfin ?_ h
          intro a b hab
          rcases hinv a b hab with hmem | hok
          · rcases List.mem_cons.mp hmem with heq | hmem2
            · obtain ⟨h1, h2⟩ := Prod.mk.injEq a b x y ▸ heq
              subst h1
              subst h2
              right
              intro i j hov xdom hx w hw
              rcases revise_some_cases c d2 a b d2 false hrev with ⟨hnone, _, _⟩ |
                  ⟨i2, j2, xdom2, ydom2, cur, hov3, hx3, hy3, hcur, hd3⟩
              · rw [hov] at hnone
                exact absurd hnone (by simp)
              · obtain ⟨rfl, rfl⟩ : i = i2 ∧ j = j2 := by
                  rw [hov] at hov3
                  have h5 := Option.some.inj hov3
                  exact ⟨congrArg Prod.fst h5, congrArg Prod.snd h5⟩
                obtain ⟨_, hiff, _⟩ :=
                  revise_spec c d2 a b i j xdom2 ydom2 d2 false hov3 hx3 hy3 hrev
                have hfe : xdom2.filter (fun w => hasSupportB i j ydom2 w) = xdom2 := by
                  by_contra hne
                  exact absurd (hiff.mpr hne) (by simp)
                obtain rfl : xdom = xdom2 := by
                  rw [hx] at hx3
                  exact Option.some.inj hx3
                have hwmem : w ∈ xdom.filter (fun w => hasSupportB i j ydom2 w) := by
                  rw [hfe]
                  exact hw
                have hpred := List.of_mem_filter hwmem
                obtain ⟨w2, hw2, ch, hch1, hch2⟩ := (hasSupportB_iff i j ydom2 w).mp hpred
                exact ⟨ydom2, hy3, w2, hw2, ch, hch1, hch2⟩
            · exact Or.inl hmem2
          · exact Or.inr hok
        | true =>
          simp only [if_true] at h
          cases hlk : lookupV d2 x with
          | none => rw [hlk] at h; simp at h
          | some ws =>
            rw [hlk] at h
            cases ws with
            | nil => simp at h
            | cons w0 ws2 =>
              apply ih d2 (requeue c x y ++ rest) dfin ?_ h
              intro a b hab
              rcases revise_some_cases c d x y d2 true hrev with ⟨_, _, hcontra⟩ |
                  ⟨i, j, xdom, ydom, cur, hov, hx, hy, hcur, hd2⟩
              · exact absurd hcontra (by simp)
              · have hxy : x ≠ y := by
                  intro he
                  rw [he, hirr y] at hov
                  exact absurd hov (by simp)
                by_cases hab_eq : (a, b) = (x, y)
                · obtain ⟨h1, h2⟩ := Prod.mk.injEq a b x y ▸ hab_eq
                  subst h1
                  subst h2
                  right
                  intro i2 j2 hov2 xdom2 hx2 w hw
                  obtain ⟨rfl, rfl⟩ : i = i2 ∧ j = j2 := by
                    rw [hov] at hov2
                    have h5 := Option.some.inj hov2
                    exact ⟨congrArg Prod.fst h5, congrArg Prod.snd h5⟩
                  subst hd2
                  rw [lookupV_updateV_self d a cur xdom hx] at hx2
                  obtain rfl : cur = xdom2 := Option.some.inj hx2
                  rw [hcur] at hw
                  have hpred := List.of_mem_filter hw
                  obtain ⟨w2, hw2, ch, hch1, hch2⟩ := (hasSupportB_iff i j ydom w).mp hpred
                  refine ⟨ydom, ?_, w2, hw2, ch, hch1, hch2⟩
                  rw [lookupV_updateV_ne d a cur b (Ne.symm hxy)]
                  exact hy
                · by_cases hbx : b = x
                  · subst hbx
                    by_cases hay : a = y
                    · subst hay
                      rcases hinv a b hab with hmem | hok
                      · rcases List.mem_cons.mp hmem with heq2 | hmem2
                        · obtain ⟨h1, h2⟩ := Prod.mk.injEq a b b a ▸ heq2
                          exact absurd h2 hxy
                        · exact Or.inl (List.mem_append_right _ hmem2)
                      · right
                        intro j2 i2 hovab ydom2 hy2 w hw
                        subst hd2
                        rw [lookupV_updateV_ne d b cur a (Ne.symm hxy)] at hy2
                        obtain rfl : ydom = ydom2 := by
                          rw [hy] at hy2
                          exact Option.some.inj hy2
                        obtain ⟨xdom2, hx2, u, hu, hagree⟩ := hok j2 i2 hovab ydom hy2 w hw
                        obtain rfl : xdom = xdom2 := by
                          rw [hx] at hx2
                          exact Option.some.inj hx2
                        obtain ⟨rfl, rfl⟩ : j = j2 ∧ i = i2 := by
                          have hs := hsymm b a i j hov
                          rw [hovab] at hs
                          have h5 := Option.some.inj hs.symm
                          exact ⟨congrArg Prod.fst h5, congrArg Prod.snd h5⟩
                        refine ⟨cur, lookupV_updateV_self d b cur xdom hx, u, ?_, hagree⟩
                        rw [hcur]
                        apply List.mem_filter.mpr
                        refine ⟨hu, ?_⟩
                        obtain ⟨ch, hch1, hch2⟩ := hagree
                        exact (hasSupportB_iff i j ydom u).mpr ⟨w, hw, ch, hch2, hch1⟩
                    · left
                      apply List.mem_append_left
                      rw [mem_requeue]
                      refine ⟨rfl, ?_, hay⟩
                      rw [mem_neighbors]
                      have hax : a ≠ b := by
                        intro he
                        rw [he, hirr b] at hab
                        exact absurd hab (by simp)
                      exact ⟨(hvars a b hab).1, hax, hab⟩
                  · rcases hinv a b hab with hmem | hok
                    · rcases List.mem_cons.mp hmem with heq2 | hmem2
                      · exact absurd heq2 hab_eq
                      · exact Or.inl (List.mem_append_right _ hmem2)
                    · right
                      intro i2 j2 hov2 adom2 ha2 w hw
                      subst hd2
                      by_cases hax : a = x
                      · subst hax
                        rw [lookupV_updateV_self d a cur xdom hx] at ha2
                        obtain rfl : cur = adom2 := Option.some.inj ha2
                        have hwx : w ∈ xdom := by
                          rw [hcur] at hw
                          exact List.mem_of_mem_filter hw
                        obtain ⟨bdom, hb, w2, hw2, hagree⟩ := hok i2 j2 hov2 xdom hx w hwx
                        refine ⟨bdom, ?_, w2, hw2, hagree⟩
                        rw [lookupV_updateV_ne d a cur b hbx]
                        exact hb
                      · rw [lookupV_updateV_ne d x cur a hax] at ha2
                        obtain ⟨bdom, hb, w2, hw2, hagree⟩ := hok i2 j2 hov2 adom2 ha2 w hw
                        refine ⟨bdom, ?_, w2, hw2, hagree⟩
                        rw [lookupV_updateV_ne d x cur b hbx]
                        exact hb

/-- Claim C2: arc-consistency fixed point.  When `ac3` with the default
initial queue returns True, every ordered pair of slots with a defined
overlap is arc consistent in the resulting store: each word left in `x`'s
domain has at least one word in `y`'s domain agreeing with it at the
overlap offsets.  (Well-formedness of the modelled overlap relation —
defined only between distinct slots of the puzzle, and symmetric, as the
spec's geometry guarantees — enters as hypotheses.) -/
theorem ac3_arc_consistency (c : Crossword) (d dfin : Domains)
    (hvars : ∀ x y, (c.overlaps x y).isSome → x ∈ c.vars ∧ y ∈ c.vars)
    (hirr : ∀ v : Variable, c.overlaps v v = none)
    (hsymm : ∀ x y i j, c.overlaps x y = some (i, j) → c.overlaps y x = some (j, i))
    (h : ac3 c d none = some (true, dfin)) :
    ∀ x y i j, c.overlaps x y = some (i, j) →
      ∀ xdom, lookupV dfin x = some xdom →
        ∀ w ∈ xdom, ∃ ydom, lookupV dfin y = some ydom ∧ ∃ w2 ∈ ydom, agreeAt i j w w2 := by
  rw [ac3] at h
  simp only [Option.getD] at h
  have hall := ac3Fuel_arcOK c hvars hirr hsymm _ d ((allArcs c).reverse) dfin ?_ h
  · intro x y i j hov xdom hx w hw
    exact hall x y (by simp [hov]) i j hov xdom hx w hw
  · intro x y hov
    left
    rw [List.mem_reverse, mem_allArcs]
    have hyx : y ≠ x := by
      intro he
      rw [he, hirr x] at hov
      exact absurd hov (by simp)
    exact ⟨(hvars x y hov).1, (hvars x y hov).2, hyx⟩

def c2Cross : Crossword :=
  Crossword.mk [vA, vB] [['a', 'b'], ['a', 'c']] (twoSlotOverlaps vA vB 0 0)

def c2Doms : Domains := [(vA, [['a', 'b'], ['a', 'c']]), (vB, [['a', 'b'], ['a', 'c']])]

/-- Witness for C2 at a concrete puzzle where `ac3` returns True. -/
theorem ac3_arc_consistency_witness :
    ∃ ydom, lookupV c2Doms vB = some ydom ∧ ∃ w2 ∈ ydom, agreeAt 0 0 ['a', 'b'] w2 := by
  have h := ac3_arc_consistency c2Cross c2Doms c2Doms
    (twoSlotOverlaps_vars vA vB 0 0) (twoSlotOverlaps_irr vA vB 0 0 (by decide))
    (twoSlotOverlaps_symm vA vB 0 0 (by decide)) (by decide)
    vA vB 0 0 (by decide) [['a', 'b'], ['a', 'c']] (by decide) ['a', 'b'] (by decide)
  exact h

theorem twoSlotOverlaps_wf (va vb : Variable) (i j : Nat)
    (hi : i < va.length) (hj : j < vb.length) :
    ∀ x y i2 j2, twoSlotOverlaps va vb i j x y = some (i2, j2) →
      i2 < x.length ∧ j2 < y.length := by
  intro x y i2 j2 h
  rw [twoSlotOverlaps] at h
  by_cases h1 : x = va ∧ y = vb
  · obtain ⟨rfl, rfl⟩ := h1
    rw [if_pos ⟨rfl, rfl⟩] at h
    have h5 := Option.some.inj h
    obtain ⟨rfl, rfl⟩ : i = i2 ∧ j = j2 :=
      ⟨congrArg Prod.fst h5, congrArg Prod.snd h5⟩
    exact ⟨hi, hj⟩
  · rw [if_neg h1] at h
    by_cases h2 : x = vb ∧ y = va
    · obtain ⟨rfl, rfl⟩ := h2
      rw [if_pos ⟨rfl, rfl⟩] at h
      have h5 := Option.some.inj h
      obtain ⟨rfl, rfl⟩ : j = i2 ∧ i = j2 :=
        ⟨congrArg Prod.fst h5, congrArg Prod.snd h5⟩
      exact ⟨hj, hi⟩
    · rw [if_neg h2] at h
      exact absurd h (by simp)

/-- The first loop of `consistent`: visit each assigned slot, rejecting a
word whose length differs from its slot's or a word already seen
(`assigned_values`).  Dict iteration visits each key once, so with the
dict's keys unique the entry's word is `assignment[var]`. -/
def wordsSeenCheck : Assignment → List Word → Bool
  | [], _ => true
  | (v, w) :: rest, seen =>
    if v.length ≠ w.length ∨ w ∈ seen then false
    else wordsSeenCheck rest (w :: seen)

/-- The second loop of `consistent`: for every key `(var1, var2)` of the
overlaps dict with both slots assigned and a defined overlap, compare the
characters at the overlap offsets (indexing out of range raises,
modelled by `none`). -/
def overlapPairsCheck (c : Crossword) (a : Assignment) :
    List (Variable × Variable) → Option Bool
  | [] => some true
  | (v1, v2) :: rest =>
    match lookupV a v1, lookupV a v2 with
    | some w1, some w2 =>
      match c.overlaps v1 v2 with
      | some (i, j) =>
        match w1[i]?, w2[j]? with
        | some c1, some c2 =>
          if c1 = c2 then overlapPairsCheck c a rest else some false
        | _, _ => none
      | none => overlapPairsCheck c a rest
    | _, _ => overlapPairsCheck c a rest

/-- `CrosswordCreator.consistent(assignment)`. -/
def consistent (c : Crossword) (a : Assignment) : Option Bool :=
  if wordsSeenCheck a [] then overlapPairsCheck c a (allArcs c) else some false

theorem lookupV_mem {β : Type} :
    ∀ (l : List (Variable × β)) (v : Variable) (b : β),
      lookupV l v = some b → (v, b) ∈ l := by
  intro l
  induction l with
  | nil => intro v b h; simp [lookupV] at h
  | cons e rest ih =>
    intro v b h
    obtain ⟨k, b0⟩ := e
    by_cases hk : v = k
    · subst hk
      simp only [lookupV, if_true] at h
      obtain rfl := Option.some.inj h
      exact List.mem_cons_self _ _
    · simp only [lookupV, if_neg hk] at h
      exact List.mem_cons_of_mem _ (ih v b h)

theorem lookupV_of_mem_nodup {β : Type} :
    ∀ (l : List (Variable × β)) (v : Variable) (b : β),
      (l.map Prod.fst).Nodup → (v, b) ∈ l → lookupV l v = some b := by
  intro l
  induction l with
  | nil => intro v b _ h; simp at h
  | cons e rest ih =>
    intro v b hnd hm
    obtain ⟨k, b0⟩ := e
    simp only [List.map_cons, List.nodup_cons] at hnd
    obtain ⟨hk_nin, hnd2⟩ := hnd
    rcases List.mem_cons.mp hm with heq | hm2
    · obtain ⟨h1, h2⟩ := Prod.mk.injEq v b k b0 ▸ heq
      subst h1
      subst h2
      simp [lookupV]
    · have hvk : v ≠ k := by
        intro he
        subst he
        exact hk_nin (by simpa using List.mem_map_of_mem Prod.fst hm2)
      simp only [lookupV, if_neg hvk]
      exact ih v b hnd2 hm2

theorem wordsSeenCheck_false_iff :
    ∀ (l : Assignment) (seen : List Word),
      wordsSeenCheck l seen = false ↔
        (∃ e ∈ l, e.1.length ≠ e.2.length) ∨ (∃ e ∈ l, e.2 ∈ seen) ∨
        ¬ l.Pairwise (fun e1 e2 => e1.2 ≠ e2.2) := by
  intro l
  induction l with
  | nil =>
    intro seen
    simp [wordsSeenCheck]
  | cons e rest ih =>
    intro seen
    obtain ⟨v, w⟩ := e
    simp only [wordsSeenCheck]
    by_cases hc : v.length ≠ w.length ∨ w ∈ seen
    · rw [if_pos hc]
      constructor
      · intro _
        rcases hc with hlen | hseen
        · exact Or.inl ⟨(v, w), List.mem_cons_self _ _, hlen⟩
        · exact Or.inr (Or.inl ⟨(v, w), List.mem_cons_self _ _, hseen⟩)
      · intro _
        rfl
    · rw [if_neg hc]
      push_neg at hc
      obtain ⟨hlen, hsn⟩ := hc
      rw [ih (w :: seen)]
      constructor
      · rintro (⟨e, he, hel⟩ | ⟨e, he, hes⟩ | hpw)
        · exact Or.inl ⟨e, List.mem_cons_of_mem _ he, hel⟩
        · rcases List.mem_cons.mp hes with hw | hs
          · refine Or.inr (Or.inr ?_)
            rw [List.pairwise_cons]
            rintro ⟨hall, _⟩
            exact (hall e he) hw.symm
          · exact Or.inr (Or.inl ⟨e, List.mem_cons_of_mem _ he, hs⟩)
        · refine Or.inr (Or.inr ?_)
          rw [List.pairwise_cons]
          rintro ⟨_, hpw2⟩
          exact hpw hpw2
      · rintro (⟨e, he, hel⟩ | ⟨e, he, hes⟩ | hpw)
        · rcases List.mem_cons.mp he with heq | hm
          · rw [heq] at hel
            exact absurd hlen hel
          · exact Or.inl ⟨e, hm, hel⟩
        · rcases List.mem_cons.mp he with heq | hm
          · rw [heq] at hes
            exact absurd hes hsn
          · exact Or.inr (Or.inl ⟨e, hm, List.mem_cons_of_mem _ hes⟩)
        · rw [List.pairwise_cons] at hpw
          rcases not_and_or.mp hpw with hA | hB
          · push_neg at hA
            obtain ⟨e, he, he2⟩ := hA
            refine Or.inr (Or.inl ⟨e, he, ?_⟩)
            rw [← he2]
            exact List.mem_cons_self _ _
          · exact Or.inr (Or.inr hB)

theorem not_pairwise_dup (a : Assignment)
    (hkeys : (a.map Prod.fst).Nodup)
    (h : ¬ a.Pairwise (fun e1 e2 => e1.2 ≠ e2.2)) :
    ∃ v1 v2 w, v1 ≠ v2 ∧ lookupV a v1 = some w ∧ lookupV a v2 = some w := by
  rw [List.pairwise_iff_getElem] at h
  push_neg at h
  obtain ⟨i, j, hi, hj, hij, hne⟩ := h
  refine ⟨a[i].1, a[j].1, a[i].2, ?_, ?_, ?_⟩
  · intro he
    have him : i < (a.map Prod.fst).length := by simpa using hi
    have hjm : j < (a.map Prod.fst).length := by simpa using hj
    have hkeq : (a.map Prod.fst)[i] = (a.map Prod.fst)[j] := by
      rw [List.getElem_map, List.getElem_map]
      exact he
    have := (hkeys.getElem_inj_iff).mp hkeq
    omega
  · exact lookupV_of_mem_nodup a _ _ hkeys (List.getElem_mem hi)
  · rw [hne]
    exact lookupV_of_mem_nodup a _ _ hkeys (List.getElem_mem hj)

theorem dup_not_pairwise (a : Assignment) (v1 v2 : Variable) (w : Word)
    (hne : v1 ≠ v2)
    (h1 : lookupV a v1 = some w) (h2 : lookupV a v2 = some w) :
    ¬ a.Pairwise (fun e1 e2 => e1.2 ≠ e2.2) := by
  intro hpw
  have hm1 := lookupV_mem a v1 w h1
  have hm2 := lookupV_mem a v2 w h2
  have hsym : Symmetric (fun e1 e2 : Variable × Word => e1.2 ≠ e2.2) :=
    fun _ _ h => Ne.symm h
  have hne2 : ((v1, w) : Variable × Word) ≠ (v2, w) := by
    intro he
    obtain ⟨he1, _⟩ := Prod.mk.injEq v1 w v2 w ▸ he
    exact hne he1
  exact (List.Pairwise.forall hsym hpw hm1 hm2 hne2) rfl

theorem overlapPairsCheck_spec (c : Crossword) (a : Assignment) :
    ∀ arcs : List (Variable × Variable),
      (∀ v1 v2 i j w1 w2, (v1, v2) ∈ arcs → c.overlaps v1 v2 = some (i, j) →
        lookupV a v1 = some w1 → lookupV a v2 = some w2 →
        i < w1.length ∧ j < w2.length) →
      ∃ b, overlapPairsCheck c a arcs = some b ∧
        (b = false ↔ ∃ v1 v2 i j w1 w2, (v1, v2) ∈ arcs ∧
          c.overlaps v1 v2 = some (i, j) ∧ lookupV a v1 = some w1 ∧
          lookupV a v2 = some w2 ∧ w1[i]? ≠ w2[j]?) := by
  intro arcs
  induction arcs with
  | nil =>
    intro _
    exact ⟨true, rfl, by simp⟩
  | cons p rest ih =>
    intro hsafe
    obtain ⟨v1, v2⟩ := p
    obtain ⟨b, hb, hiff⟩ :=
      ih (fun u1 u2 i j w1 w2 hm => hsafe u1 u2 i j w1 w2 (List.mem_cons_of_mem _ hm))
    cases hl1 : lookupV a v1 with
    | none =>
      refine ⟨b, by simp only [overlapPairsCheck, hl1]; exact hb, ?_⟩
      rw [hiff]
      constructor
      · rintro ⟨u1, u2, i, j, w1, w2, hm, hrest⟩
        exact ⟨u1, u2, i, j, w1, w2, List.mem_cons_of_mem _ hm, hrest⟩
      · rintro ⟨u1, u2, i, j, w1, w2, hm, hov, hw1, hw2, hne⟩
        rcases List.mem_cons.mp hm with heq | hm2
        · obtain ⟨e1, e2⟩ := Prod.mk.injEq u1 u2 v1 v2 ▸ heq
          subst e1
          rw [hl1] at hw1
          exact absurd hw1 (by simp)
        · exact ⟨u1, u2, i, j, w1, w2, hm2, hov, hw1, hw2, hne⟩
    | some w1 =>
      cases hl2 : lookupV a v2 with
      | none =>
        refine ⟨b, by simp only [overlapPairsCheck, hl1, hl2]; exact hb, ?_⟩
        rw [hiff]
        constructor
        · rintro ⟨u1, u2, i, j, wa, wb, hm, hrest⟩
          exact ⟨u1, u2, i, j, wa, wb, List.mem_cons_of_mem _ hm, hrest⟩
        · rintro ⟨u1, u2, i, j, wa, wb, hm, hov, hw1, hw2, hne⟩
          rcases List.mem_cons.mp hm with heq | hm2
          · obtain ⟨e1, e2⟩ := Prod.mk.injEq u1 u2 v1 v2 ▸ heq
            subst e2
            rw [hl2] at hw2
            exact absurd hw2 (by simp)
          · exact ⟨u1, u2, i, j, wa, wb, hm2, hov, hw1, hw2, hne⟩
      | some w2 =>
        cases hov : c.overlaps v1 v2 with
        | none =>
          refine ⟨b, by simp only [overlapPairsCheck, hl1, hl2, hov]; exact hb, ?_⟩
          rw [hiff]
          constructor
          · rintro ⟨u1, u2, i, j, wa, wb, hm, hrest⟩
            exact ⟨u1, u2, i, j, wa, wb, List.mem_cons_of_mem _ hm, hrest⟩
          · rintro ⟨u1, u2, i, j, wa, wb, hm, hov2, hw1, hw2, hne⟩
            rcases List.mem_cons.mp hm with heq | hm2
            · obtain ⟨e1, e2⟩ := Prod.mk.injEq u1 u2 v1 v2 ▸ heq
              subst e1
              subst e2
              rw [hov] at hov2
              exact absurd hov2 (by simp)
            · exact ⟨u1, u2, i, j, wa, wb, hm2, hov2, hw1, hw2, hne⟩
        | some ij =>
          obtain ⟨i, j⟩ := ij
          obtain ⟨hi, hj⟩ := hsafe v1 v2 i j w1 w2 (List.mem_cons_self _ _) hov hl1 hl2
          have hw1e : w1[i]? = some w1[i] := List.getElem?_eq_getElem hi
          have hw2e : w2[j]? = some w2[j] := List.getElem?_eq_getElem hj
          by_cases hcc : w1[i] = w2[j]
          · refine ⟨b, ?_, ?_⟩
            · simp only [overlapPairsCheck, hl1, hl2, hov, hw1e, hw2e, if_pos hcc]
              exact hb
            · rw [hiff]
              constructor
              · rintro ⟨u1, u2, i2, j2, wa, wb, hm, hrest⟩
                exact ⟨u1, u2, i2, j2, wa, wb, List.mem_cons_of_mem _ hm, hrest⟩
              · rintro ⟨u1, u2, i2, j2, wa, wb, hm, hov2, hw1, hw2, hne⟩
                rcases List.mem_cons.mp hm with heq | hm2
                · obtain ⟨e1, e2⟩ := Prod.mk.injEq u1 u2 v1 v2 ▸ heq
                  subst e1
                  subst e2
                  rw [hov] at hov2
                  have h5 := Option.some.inj hov2
                  obtain ⟨rfl, rfl⟩ : i = i2 ∧ j = j2 :=
                    ⟨congrArg Prod.fst h5, congrArg Prod.snd h5⟩
                  rw [hl1] at hw1
                  rw [hl2] at hw2
                  obtain rfl : w1 = wa := Option.some.inj hw1
                  obtain rfl : w2 = wb := Option.some.inj hw2
                  rw [hw1e, hw2e, hcc] at hne
                  exact absurd rfl hne
                · exact ⟨u1, u2, i2, j2, wa, wb, hm2, hov2, hw1, hw2, hne⟩
          · refine ⟨false, ?_, ?_⟩
            · simp only [overlapPairsCheck, hl1, hl2, hov, hw1e, hw2e, if_neg hcc]
            · constructor
              · intro _
                refine ⟨v1, v2, i, j, w1, w2, List.mem_cons_self _ _, hov, hl1, hl2, ?_⟩
                rw [hw1e, hw2e]
                intro hcon
                exact hcc (Option.some.inj hcon)
              · intro _
                rfl

theorem consistent_spec (c : Crossword) (a : Assignment)
    (hkeys : (a.map Prod.fst).Nodup)
    (hsub : ∀ e ∈ a, e.1 ∈ c.vars)
    (hirr : ∀ v : Variable, c.overlaps v v = none)
    (hwf : ∀ x y i j, c.overlaps x y = some (i, j) → i < x.length ∧ j < y.length) :
    ∃ b, consistent c a = some b ∧
      (b = false ↔
        ((∃ v w, lookupV a v = some w ∧ w.length ≠ v.length) ∨
         (∃ v1 v2 w, v1 ≠ v2 ∧ lookupV a v1 = some w ∧ lookupV a v2 = some w) ∨
         (∃ v1 v2 i j w1 w2, c.overlaps v1 v2 = some (i, j) ∧ lookupV a v1 = some w1 ∧
            lookupV a v2 = some w2 ∧ w1[i]? ≠ w2[j]?))) := by
  cases hwsc : wordsSeenCheck a [] with
  | false =>
    refine ⟨false, by simp only [consistent, hwsc, Bool.false_eq_true, if_false], ?_⟩
    constructor
    · intro _
      rcases (wordsSeenCheck_false_iff a []).mp hwsc with ⟨e, he, hel⟩ | ⟨e, _, hes⟩ | hpw
      · exact Or.inl ⟨e.1, e.2, lookupV_of_mem_nodup a e.1 e.2 hkeys (by simpa using he),
          Ne.symm hel⟩
      · exact absurd hes (by simp)
      · obtain ⟨v1, v2, w, hne, h1, h2⟩ := not_pairwise_dup a hkeys hpw
        exact Or.inr (Or.inl ⟨v1, v2, w, hne, h1, h2⟩)
    · intro _
      rfl
  | true =>
    have hnD : ¬ ((∃ e ∈ a, e.1.length ≠ e.2.length) ∨ (∃ e ∈ a, e.2 ∈ ([] : List Word)) ∨
        ¬ a.Pairwise (fun e1 e2 => e1.2 ≠ e2.2)) := by
      intro hd
      have := (wordsSeenCheck_false_iff a []).mpr hd
      rw [hwsc] at this
      exact absurd this (by simp)
    push_neg at hnD
    obtain ⟨hlenAll, _, hpw⟩ := hnD
    have hlen : ∀ v w, lookupV a v = some w → w.length = v.length := by
      intro v w hl
      have hm := lookupV_mem a v w hl
      exact (hlenAll (v, w) hm).symm
    have hsafe : ∀ v1 v2 i j w1 w2, (v1, v2) ∈ allArcs c →
        c.overlaps v1 v2 = some (i, j) →
        lookupV a v1 = some w1 → lookupV a v2 = some w2 →
        i < w1.length ∧ j < w2.length := by
      intro v1 v2 i j w1 w2 _ hov h1 h2
      obtain ⟨hi, hj⟩ := hwf v1 v2 i j hov
      constructor
      · rw [hlen v1 w1 h1]
        exact hi
      · rw [hlen v2 w2 h2]
        exact hj
    obtain ⟨b, hb, hiff⟩ := overlapPairsCheck_spec c a (allArcs c) hsafe
    refine ⟨b, by simp only [consistent, hwsc, if_true]; exact hb, ?_⟩
    rw [hiff]
    constructor
    · rintro ⟨v1, v2, i, j, w1, w2, _, hov, h1, h2, hne⟩
      exact Or.inr (Or.inr ⟨v1, v2, i, j, w1, w2, hov, h1, h2, hne⟩)
    · rintro (⟨v, w, hl, hne⟩ | ⟨v1, v2, w, hne, h1, h2⟩ |
        ⟨v1, v2, i, j, w1, w2, hov, h1, h2, hne⟩)
      · exact absurd (hlen v w hl) hne
      · exact absurd hpw (dup_not_pairwise a v1 v2 w hne h1 h2)
      · have hv1 : v1 ∈ c.vars := hsub _ (lookupV_mem a v1 w1 h1)
        have hv2 : v2 ∈ c.vars := hsub _ (lookupV_mem a v2 w2 h2)
        have hne12 : v2 ≠ v1 := by
          intro he
          rw [he] at hov
          rw [hirr v1] at hov
          exact absurd hov (by simp)
        exact ⟨v1, v2, i, j, w1, w2, (mem_allArcs c v1 v2).mpr ⟨hv1, hv2, hne12⟩,
          hov, h1, h2, hne⟩

/-- Claim C9: validity of the Consistency Check.  Under the data model
(dict keys unique, assigned slots belong to the puzzle, geometric overlap
offsets in range, overlaps only between distinct slots), `consistent`
returns a Boolean, and it returns False exactly when some assigned word's
length differs from its slot's, two distinct slots carry the same word,
or two assigned slots with a defined overlap disagree at the overlap
offsets; in particular it returns True for a complete assignment
violating none of these. -/
theorem consistent_characterization (c : Crossword) (a : Assignment)
    (hkeys : (a.map Prod.fst).Nodup)
    (hsub : ∀ e ∈ a, e.1 ∈ c.vars)
    (hirr : ∀ v : Variable, c.overlaps v v = none)
    (hwf : ∀ x y i j, c.overlaps x y = some (i, j) → i < x.length ∧ j < y.length) :
    ∃ b, consistent c a = some b ∧
      (b = false ↔
        ((∃ v w, lookupV a v = some w ∧ w.length ≠ v.length) ∨
         (∃ v1 v2 w, v1 ≠ v2 ∧ lookupV a v1 = some w ∧ lookupV a v2 = some w) ∨
         (∃ v1 v2 i j w1 w2, c.overlaps v1 v2 = some (i, j) ∧ lookupV a v1 = some w1 ∧
            lookupV a v2 = some w2 ∧ w1[i]? ≠ w2[j]?))) :=
  consistent_spec c a hkeys hsub hirr hwf

def c9Assign : Assignment := [(vA, ['a', 'b']), (vB, ['a', 'c'])]

/-- Witness for C9 on a concrete complete assignment. -/
theorem consistent_characterization_witness :
    ∃ b, consistent c2Cross c9Assign = some b ∧
      (b = false ↔
        ((∃ v w, lookupV c9Assign v = some w ∧ w.length ≠ v.length) ∨
         (∃ v1 v2 w, v1 ≠ v2 ∧ lookupV c9Assign v1 = some w ∧ lookupV c9Assign v2 = some w) ∨
         (∃ v1 v2 i j w1 w2, c2Cross.overlaps v1 v2 = some (i, j) ∧
            lookupV c9Assign v1 = some w1 ∧
            lookupV c9Assign v2 = some w2 ∧ w1[i]? ≠ w2[j]?))) :=
  consistent_characterization c2Cross c9Assign (by decide) (by decide)
    (twoSlotOverlaps_irr vA vB 0 0 (by decide))
    (twoSlotOverlaps_wf vA vB 0 0 (by decide) (by decide))

/-- The inner sum of `count_eliminated_values`: over one unassigned
neighbor's domain, count the words whose character at the neighbor's
overlap offset differs from `value`'s character at `var`'s offset (each
comparison indexes both words; out of range raises, modelled `none`). -/
def eliminatedIn (value : Word) (iv inb : Nat) : List Word → Option Nat
  | [] => some 0
  | val :: rest =>
    match val[inb]?, value[iv]? with
    | some a, some b =>
      match eliminatedIn value iv inb rest with
      | none => none
      | some n => some (n + if a ≠ b then 1 else 0)
    | _, _ => none

/-- `count_eliminated_values(value, var)` from `order_domain_values`:
sum the eliminations over the given (unassigned-neighbor) slots;
neighbors with no overlap contribute nothing; a missing domain is a
`KeyError`. -/
def countEliminated (c : Crossword) (d : Domains) (var : Variable) (value : Word) :
    List Variable → Option Nat
  | [] => some 0
  | nb :: rest =>
    match c.overlaps var nb with
    | some (iv, inb) =>
      match lookupV d nb with
      | none => none
      | some nbDom =>
        match eliminatedIn value iv inb nbDom with
        | none => none
        | some n =>
          match countEliminated c d var value rest with
          | none => none
          | some m => some (n + m)
    | none => countEliminated c d var value rest

/-- Decorate each candidate word with its sort key, failing if any key
computation raises (as Python's `list.sort(key=...)` would). -/
def keyedValues (c : Crossword) (d : Domains) (var : Variable) (nbs : List Variable) :
    List Word → Option (List (Nat × Word))
  | [] => some []
  | w :: rest =>
    match countEliminated c d var w nbs with
    | none => none
    | some n =>
      match keyedValues c d var nbs rest with
      | none => none
      | some l => some ((n, w) :: l)

/-- `order_domain_values(var, assignment)`: the domain of `var` sorted
ascending by the number of values each word rules out among the
unassigned neighbors.  Python's sort is stable, and a stable sort by the
key is unique, so the stable `insertionSort` gives the same list. -/
def order_domain_values (c : Crossword) (d : Domains) (var : Variable) (a : Assignment) :
    Option (List Word) :=
  match lookupV d var with
  | none => none
  | some dom =>
    match keyedValues c d var
        ((neighbors c var).filter (fun nb => (lookupV a nb).isNone)) dom with
    | none => none
    | some keyed =>
      some ((List.insertionSort (fun p q => p.1 ≤ q.1) keyed).map Prod.snd)

/-- The sort key of `select_unassigned_variable`:
`(len(self.domains[v]), -len(neighbors(v)))`. -/
def selectKey (c : Crossword) (d : Domains) (v : Variable) : Nat × Int :=
  (((lookupV d v).getD []).length, -((neighbors c v).length : Int))

/-- Python tuple comparison for the selection keys. -/
abbrev selLE (p q : Nat × Int) : Prop :=
  p.1 < q.1 ∨ (p.1 = q.1 ∧ p.2 ≤ q.2)

/-- `select_unassigned_variable(assignment)`: the keys of the Domain
Store not yet assigned, sorted by `(domain size, -degree)`; the first is
returned.  Python would raise `IndexError` on an empty candidate list
(unreachable from `backtrack`, which checks completeness first);
modelled as `none`. -/
def select_unassigned_variable (c : Crossword) (d : Domains) (a : Assignment) :
    Option Variable :=
  match List.insertionSort (fun u v => selLE (selectKey c d u) (selectKey c d v))
      ((d.map Prod.fst).filter (fun v => (lookupV a v).isNone)) with
  | [] => none
  | v :: _ => some v

/-- `assignment_complete(assignment)`: every slot of the Domain Store is
assigned. -/
def assignment_complete (d : Domains) (a : Assignment) : Bool :=
  (d.map Prod.fst).all (fun v => (lookupV a v).isSome)

/-- A backtracking-search activation: either entering `backtrack` with an
assignment, or part-way through `for value in order_domain_values(...)`
with the remaining candidate values.  The Domain Store is threaded
through explicitly so that any mutation of `self.domains` by the search
would be observable (the frame theorem below shows there is none). -/
inductive BTState where
  | main (d : Domains) (a : Assignment)
  | vloop (d : Domains) (a : Assignment) (var : Variable) (values : List Word)

def stateDomains : BTState → Domains
  | BTState.main d _ => d
  | BTState.vloop d _ _ _ => d

def stateAssign : BTState → Assignment
  | BTState.main _ a => a
  | BTState.vloop _ a _ _ => a

/-- `CrosswordCreator.backtrack(assignment)`, with an explicit activation
budget (`fuel`); the budget chosen in `backtrack` below is provably
sufficient.  A complete assignment is returned as-is; otherwise a slot is
selected and its ordered values are tried: each candidate extends a fresh
copy of the assignment (`assignment.copy()`, then `new_assignment[var] =
value`, a dict append), the extension is kept only if `consistent`
accepts it, and the first non-`None` recursive result is propagated. -/
def btRun (c : Crossword) : Nat → BTState → Option (Domains × Option Assignment)
  | 0, _ => none
  | fuel + 1, BTState.main d a =>
    if assignment_complete d a then some (d, some a)
    else
      match select_unassigned_variable c d a with
      | none => some (d, none)
      | some var =>
        match order_domain_values c d var a with
        | none => none
        | some values => btRun c fuel (BTState.vloop d a var values)
  | _ + 1, BTState.vloop d _ _ [] => some (d, none)
  | fuel + 1, BTState.vloop d a var (w :: rest) =>
    match consistent c (a ++ [(var, w)]) with
    | none => none
    | some false => btRun c fuel (BTState.vloop d a var rest)
    | some true =>
      match btRun c fuel (BTState.main d (a ++ [(var, w)])) with
      | none => none
      | some (d2, some r) => some (d2, some r)
      | some (d2, none) => btRun c fuel (BTState.vloop d2 a var rest)

/-- Number of slots of the Domain Store not assigned yet. -/
def countUnassigned (d : Domains) (a : Assignment) : Nat :=
  ((d.map Prod.fst).filter (fun v => (lookupV a v).isNone)).length

/-- Bound on the activation depth of the search below a state. -/
def btMeasure : BTState → Nat
  | BTState.main d a => countUnassigned d a * (totalSize d + 2) + totalSize d + 2
  | BTState.vloop d a _ values => countUnassigned d a * (totalSize d + 2) + values.length + 1

def backtrack (c : Crossword) (d : Domains) (a : Assignment) :
    Option (Domains × Option Assignment) :=
  btRun c (btMeasure (BTState.main d a) + 1) (BTState.main d a)

/-- `CrosswordCreator.solve()`: node consistency, then `ac3` (its Boolean
result is discarded, but its narrowing of the store persists), then
backtracking from the empty assignment. -/
def solve (c : Crossword) : Option (Option Assignment) :=
  match ac3 c (enforce_node_consistency (initDomains c)) none with
  | none => none
  | some (_, d2) =>
    match backtrack c d2 [] with
    | none => none
    | some (_, r) => some r

theorem btRun_frame (c : Crossword) :
    ∀ (fuel : Nat) (s : BTState) (d2 : Domains) (r : Option Assignment),
      btRun c fuel s = some (d2, r) → d2 = stateDomains s := by
  intro fuel
  induction fuel with
  | zero =>
    intro s d2 r h
    exact absurd h (by simp [btRun])
  | succ n ih =>
    intro s d2 r h
    cases s with
    | main d a =>
      simp only [btRun] at h
      by_cases hc : assignment_complete d a
      · rw [if_pos hc] at h
        simp only [Option.some.injEq, Prod.mk.injEq] at h
        exact h.1.symm
      · rw [if_neg hc] at h
        cases hsel : select_unassigned_variable c d a with
        | none =>
          simp only [hsel] at h
          simp only [Option.some.injEq, Prod.mk.injEq] at h
          exact h.1.symm
        | some var =>
          simp only [hsel] at h
          cases hord : order_domain_values c d var a with
          | none => simp [hord] at h
          | some values =>
            simp only [hord] at h
            exact ih (BTState.vloop d a var values) d2 r h
    | vloop d a var values =>
      cases values with
      | nil =>
        simp only [btRun, Option.some.injEq, Prod.mk.injEq] at h
        exact h.1.symm
      | cons w rest =>
        simp only [btRun] at h
        cases hcons : consistent c (a ++ [(var, w)]) with
        | none => simp [hcons] at h
        | some b =>
          simp only [hcons] at h
          cases b with
          | false => exact ih (BTState.vloop d a var rest) d2 r h
          | true =>
            cases hrec : btRun c n (BTState.main d (a ++ [(var, w)])) with
            | none => simp [hrec] at h
            | some p =>
              obtain ⟨dI, rI⟩ := p
              simp only [hrec] at h
              have hdI : dI = d := ih (BTState.main d (a ++ [(var, w)])) dI rI hrec
              cases rI with
              | some rr =>
                simp only [Option.some.injEq, Prod.mk.injEq] at h
                rw [← h.1]
                exact hdI
              | none =>
                have := ih (BTState.vloop dI a var rest) d2 r h
                rw [this, hdI]
                rfl

theorem btRun_extends (c : Crossword) :
    ∀ (fuel : Nat) (s : BTState) (d2 : Domains) (r : Assignment),
      btRun c fuel s = some (d2, some r) → ∃ ext, r = stateAssign s ++ ext := by
  intro fuel
  induction fuel with
  | zero =>
    intro s d2 r h
    exact absurd h (by simp [btRun])
  | succ n ih =>
    intro s d2 r h
    cases s with
    | main d a =>
      simp only [btRun] at h
      by_cases hc : assignment_complete d a
      · rw [if_pos hc] at h
        simp only [Option.some.injEq, Prod.mk.injEq] at h
        exact ⟨[], by rw [← h.2]; simp [stateAssign]⟩
      · rw [if_neg hc] at h
        cases hsel : select_unassigned_variable c d a with
        | none =>
          simp only [hsel] at h
          simp at h
        | some var =>
          simp only [hsel] at h
          cases hord : order_domain_values c d var a with
          | none => simp [hord] at h
          | some values =>
            simp only [hord] at h
            exact ih (BTState.vloop d a var values) d2 r h
    | vloop d a var values =>
      cases values with
      | nil => simp only [btRun] at h; simp at h
      | cons w rest =>
        simp only [btRun] at h
        cases hcons : consistent c (a ++ [(var, w)]) with
        | none => simp [hcons] at h
        | some b =>
          simp only [hcons] at h
          cases b with
          | false => exact ih (BTState.vloop d a var rest) d2 r h
          | true =>
            cases hrec : btRun c n (BTState.main d (a ++ [(var, w)])) with
            | none => simp [hrec] at h
            | some p =>
              obtain ⟨dI, rI⟩ := p
              simp only [hrec] at h
              cases rI with
              | some rr =>
                simp only [Option.some.injEq, Prod.mk.injEq] at h
                obtain ⟨_, h2⟩ := h
                obtain ⟨ext, hext⟩ := ih (BTState.main d (a ++ [(var, w)])) dI rr hrec
                refine ⟨(var, w) :: ext, ?_⟩
                rw [← h2, hext]
                simp [stateAssign]
              | none =>
                exact ih (BTState.vloop dI a var rest) d2 r h

/-- Claim C10: the search has no effect on pre-existing state.  A call to
`backtrack` (including the heuristics it invokes) returns the Domain
Store exactly as it received it, and a returned solution extends the
caller's assignment without touching its existing bindings (candidate
extensions are made on a fresh copy of the dict). -/
theorem backtrack_frame (c : Crossword) (d : Domains) (a : Assignment)
    (d2 : Domains) (r : Option Assignment)
    (h : backtrack c d a = some (d2, r)) :
    d2 = d ∧ ∀ sol, r = some sol → ∃ ext, sol = a ++ ext := by
  constructor
  · exact btRun_frame c _ (BTState.main d a) d2 r h
  · intro sol hsol
    subst hsol
    exact btRun_extends c _ (BTState.main d a) d2 sol h

/-- Witness for C10 on a concrete search that finds a solution. -/
theorem backtrack_frame_witness :
    c2Doms = c2Doms ∧ ∃ ext, c9Assign = [] ++ ext := by
  have h := backtrack_frame c2Cross c2Doms [] c2Doms (some c9Assign) (by decide)
  exact ⟨h.1, h.2 c9Assign rfl⟩

theorem lookupV_append {β : Type} :
    ∀ (l1 l2 : List (Variable × β)) (v : Variable),
      lookupV (l1 ++ l2) v =
        match lookupV l1 v with
        | some b => some b
        | none => lookupV l2 v := by
  intro l1 l2 v
  induction l1 with
  | nil => rfl
  | cons e rest ih =>
    obtain ⟨k, b⟩ := e
    by_cases hk : v = k
    · subst hk
      simp [lookupV]
    · simp [lookupV, hk, ih]

theorem lookupV_isSome_iff_mem {β : Type} :
    ∀ (l : List (Variable × β)) (v : Variable),
      (lookupV l v).isSome = true ↔ v ∈ l.map Prod.fst := by
  intro l v
  induction l with
  | nil => simp [lookupV]
  | cons e rest ih =>
    obtain ⟨k, b⟩ := e
    by_cases hk : v = k
    · subst hk
      simp [lookupV]
    · simp [lookupV, hk, ih]

theorem lookupV_constMap (ws : List Word) :
    ∀ (l : List Variable) (v : Variable), v ∈ l →
      lookupV (l.map (fun u => (u, ws))) v = some ws := by
  intro l
  induction l with
  | nil => intro v hv; cases hv
  | cons u rest ih =>
    intro v hv
    by_cases hk : v = u
    · subst hk
      simp [lookupV]
    · rcases List.mem_cons.mp hv with heq | hm
      · exact absurd heq hk
      · simp only [List.map_cons, lookupV, if_neg hk]
        exact ih v hm

theorem lookupV_initDomains (c : Crossword) :
    ∀ v ∈ c.vars, lookupV (initDomains c) v = some c.words := by
  intro v hv
  rw [initDomains]
  exact lookupV_constMap c.words c.vars v hv

theorem keys_initDomains (c : Crossword) :
    (initDomains c).map Prod.fst = c.vars := by
  rw [initDomains, List.map_map]
  exact List.map_id c.vars

theorem keys_enc (d : Domains) :
    (enforce_node_consistency d).map Prod.fst = d.map Prod.fst := by
  rw [enforce_node_consistency, List.map_map]
  rfl

theorem enc_lengths (d : Domains) :
    ∀ v ws, lookupV (enforce_node_consistency d) v = some ws →
      ∀ w ∈ ws, w.length = v.length := by
  intro v ws h w hw
  rw [lookupV_enc d v] at h
  cases h0 : lookupV d v with
  | none => rw [h0] at h; simp at h
  | some ws0 =>
    rw [h0] at h
    simp only [Option.map] at h
    obtain rfl : ws0.filter (fun w => w.length == v.length) = ws :=
      Option.some.inj h
    have := List.of_mem_filter hw
    simpa using this

theorem enc_subset (d : Domains) :
    ∀ v ws, lookupV (enforce_node_consistency d) v = some ws →
      ∃ ws0, lookupV d v = some ws0 ∧ ∀ w ∈ ws, w ∈ ws0 := by
  intro v ws h
  rw [lookupV_enc d v] at h
  cases h0 : lookupV d v with
  | none => rw [h0] at h; simp at h
  | some ws0 =>
    rw [h0] at h
    simp only [Option.map] at h
    obtain rfl : ws0.filter (fun w => w.length == v.length) = ws :=
      Option.some.inj h
    exact ⟨ws0, rfl, fun w hw => List.mem_of_mem_filter hw⟩

theorem overlapPairsCheck_nil_assign (c : Crossword) :
    ∀ arcs : List (Variable × Variable), overlapPairsCheck c [] arcs = some true := by
  intro arcs
  induction arcs with
  | nil => rfl
  | cons p rest ih =>
    obtain ⟨v1, v2⟩ := p
    simp only [overlapPairsCheck, lookupV]
    exact ih

theorem consistent_nil (c : Crossword) : consistent c [] = some true := by
  rw [consistent]
  simp only [wordsSeenCheck, if_true]
  exact overlapPairsCheck_nil_assign c (allArcs c)

theorem lookupV_length_le_totalSize :
    ∀ (d : Domains) (v : Variable) (ws : List Word),
      lookupV d v = some ws → ws.length ≤ totalSize d := by
  intro d v ws h
  induction d with
  | nil => simp [lookupV] at h
  | cons e rest ih =>
    obtain ⟨k, b⟩ := e
    by_cases hk : v = k
    · subst hk
      simp only [lookupV, if_true] at h
      obtain rfl := Option.some.inj h
      simp only [totalSize, List.map_cons, List.sum_cons]
      omega
    · simp only [lookupV, if_neg hk] at h
      have := ih h
      simp only [totalSize, List.map_cons, List.sum_cons] at this ⊢
      omega

theorem length_filter_lt {α : Type} (p p2 : α → Bool) (l : List α)
    (himp : ∀ x, p2 x = true → p x = true) (x0 : α) (hx0 : x0 ∈ l)
    (hp : p x0 = true) (hnp : p2 x0 = false) :
    (l.filter p2).length < (l.filter p).length := by
  induction l with
  | nil => cases hx0
  | cons a t ih =>
    rcases List.mem_cons.mp hx0 with rfl | hmem
    · have hle : (t.filter p2).length ≤ (t.filter p).length := by
        rw [← List.countP_eq_length_filter, ← List.countP_eq_length_filter]
        exact List.countP_mono_left (fun x _ h => himp x h)
      simp only [List.filter_cons, hp, hnp]
      simp only [Bool.false_eq_true, if_false, if_true, List.length_cons]
      omega
    · have hstep := ih hmem
      by_cases hpa : p2 a = true
      · have hpa2 := himp a hpa
        simp only [List.filter_cons, hpa, hpa2, if_true, List.length_cons]
        omega
      · have hpa3 : p2 a = false := by
          cases h : p2 a
          · rfl
          · exact absurd h hpa
        cases hpb : p a
        · simp only [List.filter_cons, hpa3, hpb]
          simp only [Bool.false_eq_true, if_false]
          omega
        · simp only [List.filter_cons, hpa3, hpb]
          simp only [Bool.false_eq_true, if_false, if_true, List.length_cons]
          omega

theorem countUnassigned_append_lt (d : Domains) (a : Assignment)
    (var : Variable) (w : Word)
    (hvar : var ∈ d.map Prod.fst) (hun : lookupV a var = none) :
    countUnassigned d (a ++ [(var, w)]) < countUnassigned d a := by
  apply length_filter_lt _ _ _ ?_ var hvar ?_ ?_
  · intro v hv
    simp only [Option.isNone_iff_eq_none] at hv ⊢
    rw [lookupV_append] at hv
    cases h0 : lookupV a v with
    | none => rfl
    | some b => rw [h0] at hv; simp at hv
  · simp [hun]
  · have hl : lookupV (a ++ [(var, w)]) var = some w := by
      rw [lookupV_append, hun]
      simp [lookupV]
    rw [hl]
    rfl

theorem lookupV_append_single_ne (a : Assignment) (var v : Variable) (w : Word)
    (hne : v ≠ var) : lookupV (a ++ [(var, w)]) v = lookupV a v := by
  rw [lookupV_append]
  cases h0 : lookupV a v with
  | none => simp [lookupV, hne]
  | some b => rfl

theorem lookupV_append_single_self (a : Assignment) (var : Variable) (w : Word)
    (hun : lookupV a var = none) : lookupV (a ++ [(var, w)]) var = some w := by
  rw [lookupV_append, hun]
  simp [lookupV]

theorem select_some (c : Crossword) (d : Domains) (a : Assignment) (var : Variable)
    (h : select_unassigned_variable c d a = some var) :
    var ∈ d.map Prod.fst ∧ lookupV a var = none := by
  rw [select_unassigned_variable] at h
  cases hs : List.insertionSort (fun u v => selLE (selectKey c d u) (selectKey c d v))
      ((d.map Prod.fst).filter (fun v => (lookupV a v).isNone)) with
  | nil => rw [hs] at h; simp at h
  | cons v0 rest =>
    rw [hs] at h
    obtain rfl : var = v0 := (Option.some.inj h).symm
    have hmem : var ∈ (d.map Prod.fst).filter (fun v => (lookupV a v).isNone) := by
      have hp := List.perm_insertionSort
        (fun u v => selLE (selectKey c d u) (selectKey c d v))
        ((d.map Prod.fst).filter (fun v => (lookupV a v).isNone))
      exact hp.mem_iff.mp (by rw [hs]; exact List.mem_cons_self _ _)
    have h1 := List.mem_of_mem_filter hmem
    have h2 := List.of_mem_filter hmem
    simp only [Option.isNone_iff_eq_none] at h2
    exact ⟨h1, h2⟩

theorem select_isSome_of_incomplete (c : Crossword) (d : Domains) (a : Assignment)
    (h : assignment_complete d a = false) :
    ∃ var, select_unassigned_variable c d a = some var := by
  have hne : (d.map Prod.fst).filter (fun v => (lookupV a v).isNone) ≠ [] := by
    intro hnil
    rw [assignment_complete] at h
    have : ∃ v ∈ d.map Prod.fst, ¬ ((lookupV a v).isSome = true) := by
      by_contra hall
      push_neg at hall
      rw [(List.all_eq_true).mpr hall] at h
      exact absurd h (by simp)
    obtain ⟨v, hv, hvn⟩ := this
    have : v ∈ (d.map Prod.fst).filter (fun v => (lookupV a v).isNone) := by
      apply List.mem_filter.mpr
      refine ⟨hv, ?_⟩
      simp only [Option.isNone_iff_eq_none, Option.not_isSome_iff_eq_none] at hvn ⊢
      exact hvn
    rw [hnil] at this
    cases this
  rw [select_unassigned_variable]
  cases hs : List.insertionSort (fun u v => selLE (selectKey c d u) (selectKey c d v))
      ((d.map Prod.fst).filter (fun v => (lookupV a v).isNone)) with
  | nil =>
    have hp := List.perm_insertionSort
      (fun u v => selLE (selectKey c d u) (selectKey c d v))
      ((d.map Prod.fst).filter (fun v => (lookupV a v).isNone))
    rw [hs] at hp
    exact absurd (List.Perm.eq_nil hp.symm) hne
  | cons v0 rest => exact ⟨v0, rfl⟩

theorem eliminatedIn_total (value : Word) (iv inb : Nat)
    (hiv : iv < value.length) :
    ∀ nbDom : List Word, (∀ w ∈ nbDom, inb < w.length) →
      ∃ n, eliminatedIn value iv inb nbDom = some n := by
  intro nbDom
  induction nbDom with
  | nil => intro _; exact ⟨0, rfl⟩
  | cons val rest ih =>
    intro hall
    obtain ⟨n, hn⟩ := ih (fun w hw => hall w (by simp [hw]))
    have hb : inb < val.length := hall val (by simp)
    have h1 : val[inb]? = some val[inb] := List.getElem?_eq_getElem hb
    have h2 : value[iv]? = some value[iv] := List.getElem?_eq_getElem hiv
    refine ⟨n + if val[inb] ≠ value[iv] then 1 else 0, ?_⟩
    simp only [eliminatedIn, h1, h2, hn]

theorem countEliminated_total (c : Crossword) (d : Domains) (var : Variable)
    (value : Word)
    (hwf : ∀ x y i j, c.overlaps x y = some (i, j) → i < x.length ∧ j < y.length)
    (hdlen : ∀ v ws, lookupV d v = some ws → ∀ w ∈ ws, w.length = v.length)
    (hkeys : ∀ v ∈ c.vars, (lookupV d v).isSome = true)
    (hval : value.length = var.length) :
    ∀ nbs : List Variable, (∀ nb ∈ nbs, nb ∈ c.vars) →
      ∃ n, countEliminated c d var value nbs = some n := by
  intro nbs
  induction nbs with
  | nil => intro _; exact ⟨0, rfl⟩
  | cons nb rest ih =>
    intro hall
    obtain ⟨m, hm⟩ := ih (fun u hu => hall u (by simp [hu]))
    cases hov : c.overlaps var nb with
    | none => exact ⟨m, by simp only [countEliminated, hov]; exact hm⟩
    | some p =>
      obtain ⟨iv, inb⟩ := p
      obtain ⟨hiv, hinb⟩ := hwf var nb iv inb hov
      have hnb : (lookupV d nb).isSome = true := hkeys nb (hall nb (by simp))
      obtain ⟨nbDom, hnbd⟩ := Option.isSome_iff_exists.mp hnb
      have hivv : iv < value.length := by rw [hval]; exact hiv
      have hlen2 : ∀ w ∈ nbDom, inb < w.length := by
        intro w hw
        rw [hdlen nb nbDom hnbd w hw]
        exact hinb
      obtain ⟨n, hn⟩ := eliminatedIn_total value iv inb hivv nbDom hlen2
      exact ⟨n + m, by simp only [countEliminated, hov, hnbd, hn, hm]⟩

theorem keyedValues_total (c : Crossword) (d : Domains) (var : Variable)
    (nbs : List Variable)
    (hwf : ∀ x y i j, c.overlaps x y = some (i, j) → i < x.length ∧ j < y.length)
    (hdlen : ∀ v ws, lookupV d v = some ws → ∀ w ∈ ws, w.length = v.length)
    (hkeys : ∀ v ∈ c.vars, (lookupV d v).isSome = true)
    (hnbs : ∀ nb ∈ nbs, nb ∈ c.vars) :
    ∀ dom : List Word, (∀ w ∈ dom, w.length = var.length) →
      ∃ keyed, keyedValues c d var nbs dom = some keyed ∧
        keyed.map Prod.snd = dom := by
  intro dom
  induction dom with
  | nil => intro _; exact ⟨[], rfl, rfl⟩
  | cons w rest ih =>
    intro hall
    obtain ⟨keyed, hk, hmap⟩ := ih (fun u hu => hall u (by simp [hu]))
    obtain ⟨n, hn⟩ := countEliminated_total c d var w hwf hdlen hkeys
      (hall w (by simp)) nbs hnbs
    refine ⟨(n, w) :: keyed, ?_, ?_⟩
    · simp only [keyedValues, hn, hk]
    · simp [hmap]

theorem order_domain_values_total (c : Crossword) (d : Domains) (var : Variable)
    (a : Assignment) (dom : List Word)
    (hwf : ∀ x y i j, c.overlaps x y = some (i, j) → i < x.length ∧ j < y.length)
    (hdlen : ∀ v ws, lookupV d v = some ws → ∀ w ∈ ws, w.length = v.length)
    (hkeys : ∀ v ∈ c.vars, (lookupV d v).isSome = true)
    (hvdom : lookupV d var = some dom) :
    ∃ values, order_domain_values c d var a = some values ∧ values.Perm dom := by
  obtain ⟨keyed, hk, hmap⟩ := keyedValues_total c d var
    ((neighbors c var).filter (fun nb => (lookupV a nb).isNone)) hwf hdlen hkeys
    (fun nb hnb => ((mem_neighbors c var nb).mp (List.mem_of_mem_filter hnb)).1)
    dom (fun w hw => hdlen var dom hvdom w hw)
  refine ⟨(List.insertionSort (fun p q => p.1 ≤ q.1) keyed).map Prod.snd, ?_, ?_⟩
  · simp only [order_domain_values, hvdom, hk]
  · rw [← hmap]
    exact (List.perm_insertionSort (fun p q => p.1 ≤ q.1) keyed).map Prod.snd

theorem reviseLoop_total (i j : Nat) (ydom : List Word)
    (hyl : ∀ w2 ∈ ydom, j < w2.length) :
    ∀ (copy cur : List Word) (rev : Bool), (∀ w ∈ copy, i < w.length) →
      ∃ p, reviseLoop i j ydom copy cur rev = some p := by
  intro copy
  induction copy with
  | nil => intro cur rev _; exact ⟨(cur, rev), rfl⟩
  | cons vx rest ih =>
    intro cur rev hcl
    obtain ⟨b, hb⟩ := hasCorresponding_isSome vx i j ydom
      (fun _ => hcl vx (by simp)) hyl
    cases b with
    | true =>
      obtain ⟨p, hp⟩ := ih cur rev (fun w hw => hcl w (by simp [hw]))
      exact ⟨p, by simp only [reviseLoop, hb]; exact hp⟩
    | false =>
      obtain ⟨p, hp⟩ := ih (cur.erase vx) true (fun w hw => hcl w (by simp [hw]))
      exact ⟨p, by simp only [reviseLoop, hb]; exact hp⟩

theorem revise_total (c : Crossword) (d : Domains) (x y : Variable)
    (i j : Nat) (xdom ydom : List Word)
    (hov : c.overlaps x y = some (i, j))
    (hx : lookupV d x = some xdom) (hy : lookupV d y = some ydom)
    (hxl : ∀ w ∈ xdom, i < w.length) (hyl : ∀ w ∈ ydom, j < w.length) :
    ∃ d2 r, revise c d x y = some (d2, r) := by
  obtain ⟨p, hp⟩ := reviseLoop_total i j ydom hyl xdom xdom false hxl
  exact ⟨updateV d x p.1, p.2, by simp only [revise, hov, hx, hy, hp]⟩

/-- A complete solution in the claim's sense: one word per slot, of the
slot's length and drawn from the vocabulary, globally distinct words, and
agreement at every defined overlap. -/
def SpecSolution (c : Crossword) (S : Variable → Word) : Prop :=
  (∀ v ∈ c.vars, (S v).length = v.length ∧ S v ∈ c.words) ∧
  (∀ u v, u ∈ c.vars → v ∈ c.vars → u ≠ v → S u ≠ S v) ∧
  (∀ u v i j, c.overlaps u v = some (i, j) →
    ∃ ch, (S u)[i]? = some ch ∧ (S v)[j]? = some ch)

theorem ac3Fuel_keys (c : Crossword) :
    ∀ (fuel : Nat) (d : Domains) (q : List (Variable × Variable)) (b : Bool)
      (d2 : Domains),
      ac3Fuel c fuel d q = some (b, d2) → d2.map Prod.fst = d.map Prod.fst := by
  intro fuel
  induction fuel with
  | zero =>
    intro d q b d2 h
    exact absurd h (by simp [ac3Fuel])
  | succ n ih =>
    intro d q b d2 h
    cases q with
    | nil =>
      simp only [ac3Fuel, Option.some.injEq, Prod.mk.injEq] at h
      rw [← h.2]
    | cons arc rest =>
      obtain ⟨x, y⟩ := arc
      simp only [ac3Fuel] at h
      cases hrev : revise c d x y with
      | none => rw [hrev] at h; simp at h
      | some p =>
        obtain ⟨dm, revised⟩ := p
        rw [hrev] at h
        have hk := revise_keys c d x y dm revised hrev
        cases revised with
        | false =>
          simp only [Bool.false_eq_true, if_false] at h
          rw [ih dm rest b d2 h, hk]
        | true =>
          simp only [if_true] at h
          cases hlk : lookupV dm x with
          | none => rw [hlk] at h; simp at h
          | some ws =>
            rw [hlk] at h
            cases ws with
            | nil =>
              simp only [Option.some.injEq, Prod.mk.injEq] at h
              rw [← h.2, hk]
            | cons w ws2 =>
              rw [ih dm (requeue c x y ++ rest) b d2 h, hk]

theorem ac3Fuel_subset (c : Crossword) :
    ∀ (fuel : Nat) (d : Domains) (q : List (Variable × Variable)) (b : Bool)
      (d2 : Domains),
      ac3Fuel c fuel d q = some (b, d2) →
      ∀ z ws2, lookupV d2 z = some ws2 →
        ∃ ws1, lookupV d z = some ws1 ∧ ∀ w ∈ ws2, w ∈ ws1 := by
  intro fuel
  induction fuel with
  | zero =>
    intro d q b d2 h
    exact absurd h (by simp [ac3Fuel])
  | succ n ih =>
    intro d q b d2 h
    cases q with
    | nil =>
      simp only [ac3Fuel, Option.some.injEq, Prod.mk.injEq] at h
      obtain ⟨_, hd⟩ := h
      subst hd
      exact fun z ws2 hz => ⟨ws2, hz, fun w hw => hw⟩
    | cons arc rest =>
      obtain ⟨x, y⟩ := arc
      simp only [ac3Fuel] at h
      cases hrev : revise c d x y with
      | none => rw [hrev] at h; simp at h
      | some p =>
        obtain ⟨dm, revised⟩ := p
        rw [hrev] at h
        have hstep := revise_subset c d x y dm revised hrev
        have hcomp : (∀ z ws2, lookupV d2 z = some ws2 →
            ∃ ws1, lookupV dm z = some ws1 ∧ ∀ w ∈ ws2, w ∈ ws1) →
            ∀ z ws2, lookupV d2 z = some ws2 →
            ∃ ws1, lookupV d z = some ws1 ∧ ∀ w ∈ ws2, w ∈ ws1 := by
          intro htail z ws2 hz
          obtain ⟨wsm, hm, hsub1⟩ := htail z ws2 hz
          obtain ⟨ws1, h1, hsub2⟩ := hstep z wsm hm
          exact ⟨ws1, h1, fun w hw => hsub2 w (hsub1 w hw)⟩
        cases revised with
        | false =>
          simp only [Bool.false_eq_true, if_false] at h
          exact hcomp (ih dm rest b d2 h)
        | true =>
          simp only [if_true] at h
          cases hlk : lookupV dm x with
          | none => rw [hlk] at h; simp at h
          | some ws =>
            rw [hlk] at h
            cases ws with
            | nil =>
              simp only [Option.some.injEq, Prod.mk.injEq] at h
              obtain ⟨_, hd⟩ := h
              subst hd
              exact hcomp (fun z ws2 hz => ⟨ws2, hz, fun w hw => hw⟩)
            | cons w ws2 =>
              exact hcomp (ih dm (requeue c x y ++ rest) b d2 h)

theorem revise_S_preserve (c : Crossword) (S : Variable → Word)
    (hS : SpecSolution c S)
    (hvars : ∀ x y, (c.overlaps x y).isSome → x ∈ c.vars ∧ y ∈ c.vars)
    (d : Domains) (x y : Variable) (d2 : Domains) (r : Bool)
    (hrev : revise c d x y = some (d2, r))
    (hSInv : ∀ v ∈ c.vars, ∃ ws, lookupV d v = some ws ∧ S v ∈ ws) :
    ∀ v ∈ c.vars, ∃ ws, lookupV d2 v = some ws ∧ S v ∈ ws := by
  intro v hv
  obtain ⟨ws, hws, hmem⟩ := hSInv v hv
  by_cases hvx : v = x
  · subst hvx
    rcases revise_some_cases c d v y d2 r hrev with ⟨_, hd, _⟩ |
        ⟨i, j, xdom, ydom, cur, hov, hx, hy, hcur, hd2⟩
    · subst hd
      exact ⟨ws, hws, hmem⟩
    · subst hd2
      obtain rfl : ws = xdom := by
        rw [hws] at hx
        exact Option.some.inj hx
      refine ⟨cur, lookupV_updateV_self d v cur ws hx, ?_⟩
      rw [hcur]
      apply List.mem_filter.mpr
      refine ⟨hmem, ?_⟩
      obtain ⟨ch, hch1, hch2⟩ := hS.2.2 v y i j hov
      have hyv : y ∈ c.vars := (hvars v y (by simp [hov])).2
      obtain ⟨wsy, hwsy, hmemy⟩ := hSInv y hyv
      obtain rfl : wsy = ydom := by
        rw [hwsy] at hy
        exact Option.some.inj hy
      exact (hasSupportB_iff i j wsy (S v)).mpr ⟨S y, hmemy, ch, hch1, hch2⟩
  · rw [revise_frame c d x y d2 r hrev v hvx]
    exact ⟨ws, hws, hmem⟩

theorem ac3Fuel_S (c : Crossword) (S : Variable → Word)
    (hS : SpecSolution c S)
    (hvars : ∀ x y, (c.overlaps x y).isSome → x ∈ c.vars ∧ y ∈ c.vars) :
    ∀ (fuel : Nat) (d : Domains) (q : List (Variable × Variable)) (b : Bool)
      (d2 : Domains),
      ac3Fuel c fuel d q = some (b, d2) →
      (∀ p ∈ q, (p : Variable × Variable).1 ∈ c.vars) →
      (∀ v ∈ c.vars, ∃ ws, lookupV d v = some ws ∧ S v ∈ ws) →
      (∀ v ∈ c.vars, ∃ ws, lookupV d2 v = some ws ∧ S v ∈ ws) ∧ b = true := by
  intro fuel
  induction fuel with
  | zero =>
    intro d q b d2 h
    exact absurd h (by simp [ac3Fuel])
  | succ n ih =>
    intro d q b d2 h hq hSInv
    cases q with
    | nil =>
      simp only [ac3Fuel, Option.some.injEq, Prod.mk.injEq] at h
      obtain ⟨hb, hd⟩ := h
      subst hd
      exact ⟨hSInv, hb.symm⟩
    | cons arc rest =>
      obtain ⟨x, y⟩ := arc
      simp only [ac3Fuel] at h
      cases hrev : revise c d x y with
      | none => rw [hrev] at h; simp at h
      | some p =>
        obtain ⟨dm, revised⟩ := p
        rw [hrev] at h
        have hSm := revise_S_preserve c S hS hvars d x y dm revised hrev hSInv
        cases revised with
        | false =>
          simp only [Bool.false_eq_true, if_false] at h
          exact ih dm rest b d2 h (fun p hp => hq p (List.mem_cons_of_mem _ hp)) hSm
        | true =>
          simp only [if_true] at h
          cases hlk : lookupV dm x with
          | none => rw [hlk] at h; simp at h
          | some ws =>
            rw [hlk] at h
            cases ws with
            | nil =>
              obtain ⟨wsx, hwsx, hmemx⟩ := hSm x (hq (x, y) (List.mem_cons_self _ _))
              rw [hwsx] at hlk
              obtain rfl : wsx = [] := Option.some.inj hlk
              exact absurd hmemx (by simp)
            | cons w ws2 =>
              apply ih dm (requeue c x y ++ rest) b d2 h ?_ hSm
              intro p hp
              rcases List.mem_append.mp hp with hp1 | hp2
              · obtain ⟨a0, b0⟩ := p
                obtain ⟨_, hnb, _⟩ := (mem_requeue c x y a0 b0).mp hp1
                exact ((mem_neighbors c x a0).mp hnb).1
              · exact hq p (List.mem_cons_of_mem _ hp2)

theorem ac3Fuel_noCrash (c : Crossword)
    (hwf : ∀ x y i j, c.overlaps x y = some (i, j) → i < x.length ∧ j < y.length)
    (hvars : ∀ x y, (c.overlaps x y).isSome → x ∈ c.vars ∧ y ∈ c.vars) :
    ∀ (fuel : Nat) (d : Domains) (q : List (Variable × Variable)),
      ac3Measure c d q < fuel →
      (∀ p ∈ q, (p : Variable × Variable).1 ∈ c.vars) →
      (∀ v ∈ c.vars, (lookupV d v).isSome = true) →
      (∀ v ws, lookupV d v = some ws → ∀ w ∈ ws, w.length = v.length) →
      ∃ b d2, ac3Fuel c fuel d q = some (b, d2) := by
  intro fuel
  induction fuel using Nat.strong_induction_on with
  | _ fuel ih =>
    intro d q hm hq hkeys hdlen
    cases fuel with
    | zero => omega
    | succ n =>
      cases q with
      | nil => exact ⟨true, d, rfl⟩
      | cons arc rest =>
        obtain ⟨x, y⟩ := arc
        have hrevE : ∃ dm r, revise c d x y = some (dm, r) := by
          cases hov : c.overlaps x y with
          | none => exact ⟨d, false, revise_no_overlap c d x y hov⟩
          | some ij =>
            obtain ⟨i, j⟩ := ij
            have hxv : x ∈ c.vars := hq (x, y) (List.mem_cons_self _ _)
            have hyv : y ∈ c.vars := (hvars x y (by simp [hov])).2
            obtain ⟨xdom, hx⟩ := Option.isSome_iff_exists.mp (hkeys x hxv)
            obtain ⟨ydom, hy⟩ := Option.isSome_iff_exists.mp (hkeys y hyv)
            obtain ⟨hi, hj⟩ := hwf x y i j hov
            apply revise_total c d x y i j xdom ydom hov hx hy
            · intro w hw
              rw [hdlen x xdom hx w hw]
              exact hi
            · intro w hw
              rw [hdlen y ydom hy w hw]
              exact hj
        obtain ⟨dm, r, hrev⟩ := hrevE
        have hkeysEq := revise_keys c d x y dm r hrev
        have hkeysm : ∀ v ∈ c.vars, (lookupV dm v).isSome = true := by
          intro v hv
          rw [lookupV_isSome_iff_mem, hkeysEq, ← lookupV_isSome_iff_mem]
          exact hkeys v hv
        have hdlenm : ∀ v ws, lookupV dm v = some ws → ∀ w ∈ ws, w.length = v.length := by
          intro v ws hv w hw
          obtain ⟨ws1, h1, hsub⟩ := revise_subset c d x y dm r hrev v ws hv
          exact hdlen v ws1 h1 w (hsub w hw)
        cases r with
        | false =>
          have hdm : dm = d := revise_false_eq c d x y dm hrev
          subst hdm
          have hm2 : ac3Measure c dm rest < n := by
            simp only [ac3Measure, List.length_cons] at hm ⊢
            omega
          obtain ⟨b, d2, hrec⟩ := ih n (by omega) dm rest hm2
            (fun p hp => hq p (List.mem_cons_of_mem _ hp)) hkeysm hdlenm
          exact ⟨b, d2, by simp only [ac3Fuel, hrev, Bool.false_eq_true, if_false]; exact hrec⟩
        | true =>
          have hxv : x ∈ c.vars := hq (x, y) (List.mem_cons_self _ _)
          obtain ⟨ws, hlk⟩ := Option.isSome_iff_exists.mp (hkeysm x hxv)
          cases ws with
          | nil =>
            exact ⟨false, dm, by simp only [ac3Fuel, hrev, if_true, hlk]⟩
          | cons w ws2 =>
            have hts : totalSize dm < totalSize d :=
              revise_true_shrinks c d x y dm hrev
            have hmul : totalSize dm * (c.vars.length + 1) + (c.vars.length + 1)
                ≤ totalSize d * (c.vars.length + 1) := by
              have h1 : totalSize dm + 1 ≤ totalSize d := hts
              calc totalSize dm * (c.vars.length + 1) + (c.vars.length + 1)
                  = (totalSize dm + 1) * (c.vars.length + 1) := by ring
                _ ≤ totalSize d * (c.vars.length + 1) :=
                    Nat.mul_le_mul_right _ h1
            have hrq := requeue_length_le c x y
            have hm2 : ac3Measure c dm (requeue c x y ++ rest) < n := by
              simp only [ac3Measure, List.length_cons, List.length_append] at hm ⊢
              omega
            have hq2 : ∀ p ∈ requeue c x y ++ rest,
                (p : Variable × Variable).1 ∈ c.vars := by
              intro p hp
              rcases List.mem_append.mp hp with hp1 | hp2
              · obtain ⟨a0, b0⟩ := p
                obtain ⟨_, hnb, _⟩ := (mem_requeue c x y a0 b0).mp hp1
                exact ((mem_neighbors c x a0).mp hnb).1
              · exact hq p (List.mem_cons_of_mem _ hp2)
            obtain ⟨b, d2, hrec⟩ := ih n (by omega) dm (requeue c x y ++ rest) hm2 hq2
              hkeysm hdlenm
            exact ⟨b, d2, by simp only [ac3Fuel, hrev, if_true, hlk]; exact hrec⟩

/-- Well-formedness of a Domain Store for puzzle `c`: its keys are
exactly the slots, and every stored word has its slot's length and comes
from the vocabulary. -/
def dInv (c : Crossword) (d : Domains) : Prop :=
  d.map Prod.fst = c.vars ∧
  (∀ v ws, lookupV d v = some ws → ∀ w ∈ ws, w.length = v.length) ∧
  (∀ v ws, lookupV d v = some ws → ∀ w ∈ ws, w ∈ c.words)

/-- Well-formedness of a partial assignment: distinct keys, all of them
slots of the puzzle. -/
def aInv (c : Crossword) (a : Assignment) : Prop :=
  (a.map Prod.fst).Nodup ∧ ∀ e ∈ a, e.1 ∈ c.vars

/-- Invariant of a backtracking-search activation.  In the value loop the
selected slot is a slot of the puzzle, unassigned, and the pending
candidates come from its stored domain. -/
def btInv (c : Crossword) : BTState → Prop
  | BTState.main d a => dInv c d ∧ aInv c a
  | BTState.vloop d a var values =>
      dInv c d ∧ aInv c a ∧ var ∈ c.vars ∧ lookupV a var = none ∧
      values.length ≤ totalSize d ∧
      ∃ ws, lookupV d var = some ws ∧ ∀ w ∈ values, w ∈ ws

theorem aInv_append (c : Crossword) (a : Assignment) (var : Variable) (w : Word)
    (ha : aInv c a) (hvar : var ∈ c.vars) (hun : lookupV a var = none) :
    aInv c (a ++ [(var, w)]) := by
  obtain ⟨hnd, hsub⟩ := ha
  constructor
  · rw [List.map_append]
    refine hnd.append (by simp) ?_
    intro v hv1 hv2
    simp only [List.map_cons, List.map_nil, List.mem_singleton] at hv2
    subst hv2
    have : (lookupV a v).isSome = true := (lookupV_isSome_iff_mem a v).mpr hv1
    rw [hun] at this
    exact absurd this (by simp)
  · intro e he
    rcases List.mem_append.mp he with h1 | h2
    · exact hsub e h1
    · rw [List.mem_singleton] at h2
      subst h2
      exact hvar

theorem keyedValues_map_snd (c : Crossword) (d : Domains) (var : Variable)
    (nbs : List Variable) :
    ∀ (dom : List Word) (keyed : List (Nat × Word)),
      keyedValues c d var nbs dom = some keyed → keyed.map Prod.snd = dom := by
  intro dom
  induction dom with
  | nil =>
    intro keyed h
    simp only [keyedValues, Option.some.injEq] at h
    rw [← h]
    rfl
  | cons w rest ih =>
    intro keyed h
    simp only [keyedValues] at h
    cases hn : countEliminated c d var w nbs with
    | none => rw [hn] at h; simp at h
    | some n =>
      rw [hn] at h
      cases hk : keyedValues c d var nbs rest with
      | none => rw [hk] at h; simp at h
      | some l =>
        rw [hk] at h
        simp only [Option.some.injEq] at h
        rw [← h]
        simp only [List.map_cons]
        rw [ih l hk]

theorem order_domain_values_perm (c : Crossword) (d : Domains) (var : Variable)
    (a : Assignment) (values : List Word)
    (h : order_domain_values c d var a = some values) :
    ∃ dom, lookupV d var = some dom ∧ values.Perm dom := by
  cases hdom : lookupV d var with
  | none =>
    simp only [order_domain_values, hdom] at h
    exact absurd h (by simp)
  | some dom =>
    simp only [order_domain_values, hdom] at h
    cases hk : keyedValues c d var
        ((neighbors c var).filter (fun nb => (lookupV a nb).isNone)) dom with
    | none =>
      simp only [hk] at h
      exact absurd h (by simp)
    | some keyed =>
      simp only [hk, Option.some.injEq] at h
      refine ⟨dom, rfl, ?_⟩
      rw [← h, ← keyedValues_map_snd c d var _ dom keyed hk]
      exact (List.perm_insertionSort (fun p q => p.1 ≤ q.1) keyed).map Prod.snd

theorem consistent_of_solution (c : Crossword) (S : Variable → Word)
    (hS : SpecSolution c S)
    (hirr : ∀ v : Variable, c.overlaps v v = none)
    (hwf : ∀ x y i j, c.overlaps x y = some (i, j) → i < x.length ∧ j < y.length)
    (a : Assignment)
    (hkeys : (a.map Prod.fst).Nodup)
    (hsub : ∀ e ∈ a, e.1 ∈ c.vars)
    (hagree : ∀ e ∈ a, e.2 = S e.1) :
    consistent c a = some true := by
  obtain ⟨b, hb, hiff⟩ := consistent_spec c a hkeys hsub hirr hwf
  cases b with
  | true => exact hb
  | false =>
    exfalso
    rcases hiff.mp rfl with ⟨v, w, hl, hne⟩ | ⟨v1, v2, w, hne, h1, h2⟩ |
        ⟨v1, v2, i, j, w1, w2, hov, h1, h2, hne⟩
    · have hmem := lookupV_mem a v w hl
      have hvv : v ∈ c.vars := hsub (v, w) hmem
      have hw : w = S v := hagree (v, w) hmem
      rw [hw] at hne
      exact hne (hS.1 v hvv).1
    · have hm1 := lookupV_mem a v1 w h1
      have hm2 := lookupV_mem a v2 w h2
      have hw1 : w = S v1 := hagree (v1, w) hm1
      have hw2 : w = S v2 := hagree (v2, w) hm2
      exact hS.2.1 v1 v2 (hsub _ hm1) (hsub _ hm2) hne (by rw [← hw1, ← hw2])
    · have hm1 := lookupV_mem a v1 w1 h1
      have hm2 := lookupV_mem a v2 w2 h2
      obtain ⟨ch, hc1, hc2⟩ := hS.2.2 v1 v2 i j hov
      apply hne
      have hw1 : w1 = S v1 := hagree (v1, w1) hm1
      have hw2 : w2 = S v2 := hagree (v2, w2) hm2
      rw [hw1, hw2, hc1, hc2]

theorem btRun_noCrash (c : Crossword)
    (hirr : ∀ v : Variable, c.overlaps v v = none)
    (hwf : ∀ x y i j, c.overlaps x y = some (i, j) → i < x.length ∧ j < y.length) :
    ∀ (fuel : Nat) (s : BTState), btInv c s → btMeasure s < fuel →
      ∃ p, btRun c fuel s = some p := by
  intro fuel
  induction fuel with
  | zero =>
    intro s _ hm
    exact absurd hm (Nat.not_lt_zero _)
  | succ n ih =>
    intro s hinv hm
    cases s with
    | main d a =>
      simp only [btInv] at hinv
      obtain ⟨hd, ha⟩ := hinv
      by_cases hc : assignment_complete d a
      · exact ⟨(d, some a), by simp only [btRun, if_pos hc]⟩
      · have hc2 : assignment_complete d a = false := Bool.eq_false_iff.mpr hc
        obtain ⟨var, hsel⟩ := select_isSome_of_incomplete c d a hc2
        obtain ⟨hvmem, hvun⟩ := select_some c d a var hsel
        have hvarc : var ∈ c.vars := hd.1 ▸ hvmem
        have hkeysSome : ∀ v ∈ c.vars, (lookupV d v).isSome = true := by
          intro v hv
          rw [lookupV_isSome_iff_mem, hd.1]
          exact hv
        obtain ⟨dom, hdom⟩ :=
          Option.isSome_iff_exists.mp ((lookupV_isSome_iff_mem d var).mpr hvmem)
        obtain ⟨values, hvals, hperm⟩ :=
          order_domain_values_total c d var a dom hwf hd.2.1 hkeysSome hdom
        have hlenv : values.length ≤ totalSize d := by
          rw [hperm.length_eq]
          exact lookupV_length_le_totalSize d var dom hdom
        have hinv2 : btInv c (BTState.vloop d a var values) := by
          refine ⟨hd, ha, hvarc, hvun, hlenv, dom, hdom, ?_⟩
          intro w hw
          exact hperm.mem_iff.mp hw
        have hm2 : btMeasure (BTState.vloop d a var values) < n := by
          simp only [btMeasure] at hm ⊢
          omega
        obtain ⟨p, hp⟩ := ih (BTState.vloop d a var values) hinv2 hm2
        refine ⟨p, ?_⟩
        simp only [btRun]
        rw [if_neg hc]
        simp only [hsel, hvals]
        exact hp
    | vloop d a var values =>
      cases values with
      | nil => exact ⟨(d, none), rfl⟩
      | cons w rest =>
        simp only [btInv] at hinv
        obtain ⟨hd, ha, hvarc, hvun, hlenv, ws, hws, hmemv⟩ := hinv
        have hlen2 : rest.length ≤ totalSize d := by
          simp only [List.length_cons] at hlenv
          omega
        have hinvRest : btInv c (BTState.vloop d a var rest) :=
          ⟨hd, ha, hvarc, hvun, hlen2, ws, hws,
            fun u hu => hmemv u (List.mem_cons_of_mem _ hu)⟩
        have hmRest : btMeasure (BTState.vloop d a var rest) < n := by
          simp only [btMeasure, List.length_cons] at hm ⊢
          omega
        have ha2 : aInv c (a ++ [(var, w)]) := aInv_append c a var w ha hvarc hvun
        obtain ⟨b, hcons, _⟩ := consistent_spec c (a ++ [(var, w)]) ha2.1 ha2.2 hirr hwf
        cases b with
        | false =>
          obtain ⟨p, hp⟩ := ih (BTState.vloop d a var rest) hinvRest hmRest
          refine ⟨p, ?_⟩
          simp only [btRun, hcons]
          exact hp
        | true =>
          have hcu : countUnassigned d (a ++ [(var, w)]) < countUnassigned d a :=
            countUnassigned_append_lt d a var w (hd.1 ▸ hvarc) hvun
          have hmul : countUnassigned d (a ++ [(var, w)]) * (totalSize d + 2) +
              (totalSize d + 2) ≤ countUnassigned d a * (totalSize d + 2) := by
            have h1 : countUnassigned d (a ++ [(var, w)]) + 1 ≤ countUnassigned d a := hcu
            calc countUnassigned d (a ++ [(var, w)]) * (totalSize d + 2) + (totalSize d + 2)
                = (countUnassigned d (a ++ [(var, w)]) + 1) * (totalSize d + 2) := by ring
              _ ≤ countUnassigned d a * (totalSize d + 2) := Nat.mul_le_mul_right _ h1
          have hmMain : btMeasure (BTState.main d (a ++ [(var, w)])) < n := by
            simp only [btMeasure, List.length_cons] at hm ⊢
            omega
          obtain ⟨p1, hp1⟩ := ih (BTState.main d (a ++ [(var, w)])) ⟨hd, ha2⟩ hmMain
          obtain ⟨dm, r2⟩ := p1
          have hdm : dm = d := btRun_frame c n (BTState.main d (a ++ [(var, w)])) dm r2 hp1
          subst hdm
          cases r2 with
          | some r =>
            exact ⟨(dm, some r), by simp only [btRun, hcons, hp1]⟩
          | none =>
            obtain ⟨p, hp⟩ := ih (BTState.vloop dm a var rest) hinvRest hmRest
            refine ⟨p, ?_⟩
            simp only [btRun, hcons, hp1]
            exact hp

theorem btRun_sound (c : Crossword) :
    ∀ (fuel : Nat) (s : BTState) (d2 : Domains) (r : Assignment),
      btRun c fuel s = some (d2, some r) →
      btInv c s →
      consistent c (stateAssign s) = some true →
      (∀ e ∈ stateAssign s, ∃ ws, lookupV (stateDomains s) e.1 = some ws ∧ e.2 ∈ ws) →
      assignment_complete (stateDomains s) r = true ∧
      consistent c r = some true ∧
      (r.map Prod.fst).Nodup ∧ (∀ e ∈ r, e.1 ∈ c.vars) ∧
      (∀ e ∈ r, ∃ ws, lookupV (stateDomains s) e.1 = some ws ∧ e.2 ∈ ws) := by
  intro fuel
  induction fuel with
  | zero =>
    intro s d2 r h
    exact absurd h (by simp [btRun])
  | succ n ih =>
    intro s d2 r h hinv hcons horig
    cases s with
    | main d a =>
      simp only [btInv] at hinv
      obtain ⟨hd, ha⟩ := hinv
      simp only [stateAssign, stateDomains] at hcons horig ⊢
      simp only [btRun] at h
      by_cases hc : assignment_complete d a
      · rw [if_pos hc] at h
        simp only [Option.some.injEq, Prod.mk.injEq] at h
        obtain ⟨_, hr⟩ := h
        subst hr
        exact ⟨hc, hcons, ha.1, ha.2, horig⟩
      · rw [if_neg hc] at h
        cases hsel : select_unassigned_variable c d a with
        | none =>
          simp only [hsel] at h
          simp at h
        | some var =>
          simp only [hsel] at h
          cases hord : order_domain_values c d var a with
          | none => simp [hord] at h
          | some values =>
            simp only [hord] at h
            obtain ⟨hvmem, hvun⟩ := select_some c d a var hsel
            have hvarc : var ∈ c.vars := hd.1 ▸ hvmem
            obtain ⟨dom, hdom, hperm⟩ := order_domain_values_perm c d var a values hord
            have hlenv : values.length ≤ totalSize d := by
              rw [hperm.length_eq]
              exact lookupV_length_le_totalSize d var dom hdom
            have hinv2 : btInv c (BTState.vloop d a var values) :=
              ⟨hd, ha, hvarc, hvun, hlenv, dom, hdom, fun w hw => hperm.mem_iff.mp hw⟩
            exact ih (BTState.vloop d a var values) d2 r h hinv2 hcons horig
    | vloop d a var values =>
      simp only [btInv] at hinv
      obtain ⟨hd, ha, hvarc, hvun, hlenv, ws, hws, hmemv⟩ := hinv
      simp only [stateAssign, stateDomains] at hcons horig ⊢
      cases values with
      | nil =>
        simp only [btRun] at h
        simp at h
      | cons w rest =>
        simp only [btRun] at h
        have hlen2 : rest.length ≤ totalSize d := by
          simp only [List.length_cons] at hlenv
          omega
        have hinvRest : btInv c (BTState.vloop d a var rest) :=
          ⟨hd, ha, hvarc, hvun, hlen2, ws, hws,
            fun u hu => hmemv u (List.mem_cons_of_mem _ hu)⟩
        cases hcons2 : consistent c (a ++ [(var, w)]) with
        | none => simp [hcons2] at h
        | some b =>
          simp only [hcons2] at h
          cases b with
          | false => exact ih (BTState.vloop d a var rest) d2 r h hinvRest hcons horig
          | true =>
            have ha2 : aInv c (a ++ [(var, w)]) := aInv_append c a var w ha hvarc hvun
            have horig2 : ∀ e ∈ a ++ [(var, w)],
                ∃ ws2, lookupV d e.1 = some ws2 ∧ e.2 ∈ ws2 := by
              intro e he
              rcases List.mem_append.mp he with h1 | h2
              · exact horig e h1
              · rw [List.mem_singleton] at h2
                subst h2
                exact ⟨ws, hws, hmemv w (List.mem_cons_self _ _)⟩
            cases hrec : btRun c n (BTState.main d (a ++ [(var, w)])) with
            | none => simp [hrec] at h
            | some p =>
              obtain ⟨dI, rI⟩ := p
              simp only [hrec] at h
              cases rI with
              | some rr =>
                simp only [Option.some.injEq, Prod.mk.injEq] at h
                obtain ⟨_, hr⟩ := h
                subst hr
                have := ih (BTState.main d (a ++ [(var, w)])) dI rr hrec
                  ⟨hd, ha2⟩ hcons2 horig2
                simp only [stateAssign, stateDomains] at this
                exact this
              | none =>
                have hdI : dI = d :=
                  btRun_frame c n (BTState.main d (a ++ [(var, w)])) dI none hrec
                subst hdI
                exact ih (BTState.vloop dI a var rest) d2 r h hinvRest hcons horig

theorem btRun_complete (c : Crossword) (S : Variable → Word)
    (hS : SpecSolution c S)
    (hirr : ∀ v : Variable, c.overlaps v v = none)
    (hwf : ∀ x y i j, c.overlaps x y = some (i, j) → i < x.length ∧ j < y.length) :
    ∀ (fuel : Nat) (s : BTState), btMeasure s < fuel → btInv c s →
      (∀ e ∈ stateAssign s, e.2 = S e.1) →
      (∀ v ∈ c.vars, ∃ ws, lookupV (stateDomains s) v = some ws ∧ S v ∈ ws) →
      (∀ d0 a0 var values, s = BTState.vloop d0 a0 var values → S var ∈ values) →
      ∃ d2 r, btRun c fuel s = some (d2, some r) := by
  intro fuel
  induction fuel with
  | zero =>
    intro s hm
    exact absurd hm (Nat.not_lt_zero _)
  | succ n ih =>
    intro s hm hinv hagree hSInv hvcond
    cases s with
    | main d a =>
      simp only [btInv] at hinv
      obtain ⟨hd, ha⟩ := hinv
      simp only [stateAssign, stateDomains] at hagree hSInv
      by_cases hc : assignment_complete d a
      · exact ⟨d, a, by simp only [btRun, if_pos hc]⟩
      · have hc2 : assignment_complete d a = false := Bool.eq_false_iff.mpr hc
        obtain ⟨var, hsel⟩ := select_isSome_of_incomplete c d a hc2
        obtain ⟨hvmem, hvun⟩ := select_some c d a var hsel
        have hvarc : var ∈ c.vars := hd.1 ▸ hvmem
        have hkeysSome : ∀ v ∈ c.vars, (lookupV d v).isSome = true := by
          intro v hv
          rw [lookupV_isSome_iff_mem, hd.1]
          exact hv
        obtain ⟨dom, hdom⟩ :=
          Option.isSome_iff_exists.mp ((lookupV_isSome_iff_mem d var).mpr hvmem)
        obtain ⟨values, hvals, hperm⟩ :=
          order_domain_values_total c d var a dom hwf hd.2.1 hkeysSome hdom
        have hlenv : values.length ≤ totalSize d := by
          rw [hperm.length_eq]
          exact lookupV_length_le_totalSize d var dom hdom
        have hinv2 : btInv c (BTState.vloop d a var values) :=
          ⟨hd, ha, hvarc, hvun, hlenv, dom, hdom, fun w hw => hperm.mem_iff.mp hw⟩
        have hm2 : btMeasure (BTState.vloop d a var values) < n := by
          simp only [btMeasure] at hm ⊢
          omega
        have hSval : S var ∈ values := by
          obtain ⟨ws0, hws0, hS0⟩ := hSInv var hvarc
          rw [hdom] at hws0
          obtain rfl : dom = ws0 := Option.some.inj hws0
          exact hperm.mem_iff.mpr hS0
        obtain ⟨d2, r, hrec⟩ := ih (BTState.vloop d a var values) hm2 hinv2 hagree hSInv
          (by intro d0 a0 var0 values0 heq; cases heq; exact hSval)
        refine ⟨d2, r, ?_⟩
        simp only [btRun]
        rw [if_neg hc]
        simp only [hsel, hvals]
        exact hrec
    | vloop d a var values =>
      simp only [btInv] at hinv
      obtain ⟨hd, ha, hvarc, hvun, hlenv, ws, hws, hmemv⟩ := hinv
      simp only [stateAssign, stateDomains] at hagree hSInv
      have hSval : S var ∈ values := hvcond d a var values rfl
      cases values with
      | nil => exact absurd hSval (by simp)
      | cons w rest =>
        have hlen2 : rest.length ≤ totalSize d := by
          simp only [List.length_cons] at hlenv
          omega
        have hinvRest : btInv c (BTState.vloop d a var rest) :=
          ⟨hd, ha, hvarc, hvun, hlen2, ws, hws,
            fun u hu => hmemv u (List.mem_cons_of_mem _ hu)⟩
        have hmRest : btMeasure (BTState.vloop d a var rest) < n := by
          simp only [btMeasure, List.length_cons] at hm ⊢
          omega
        have ha2 : aInv c (a ++ [(var, w)]) := aInv_append c a var w ha hvarc hvun
        have hcu : countUnassigned d (a ++ [(var, w)]) < countUnassigned d a :=
          countUnassigned_append_lt d a var w (hd.1 ▸ hvarc) hvun
        have hmul : countUnassigned d (a ++ [(var, w)]) * (totalSize d + 2) +
            (totalSize d + 2) ≤ countUnassigned d a * (totalSize d + 2) := by
          have h1 : countUnassigned d (a ++ [(var, w)]) + 1 ≤ countUnassigned d a := hcu
          calc countUnassigned d (a ++ [(var, w)]) * (totalSize d + 2) + (totalSize d + 2)
              = (countUnassigned d (a ++ [(var, w)]) + 1) * (totalSize d + 2) := by ring
            _ ≤ countUnassigned d a * (totalSize d + 2) := Nat.mul_le_mul_right _ h1
        have hmMain : btMeasure (BTState.main d (a ++ [(var, w)])) < n := by
          simp only [btMeasure, List.length_cons] at hm ⊢
          omega
        by_cases hw : w = S var
        · subst hw
          have hagree2 : ∀ e ∈ a ++ [(var, S var)], e.2 = S e.1 := by
            intro e he
            rcases List.mem_append.mp he with h1 | h2
            · exact hagree e h1
            · rw [List.mem_singleton] at h2
              subst h2
              rfl
          have hconsT : consistent c (a ++ [(var, S var)]) = some true :=
            consistent_of_solution c S hS hirr hwf (a ++ [(var, S var)])
              ha2.1 ha2.2 hagree2
          obtain ⟨d2, r, hrec⟩ := ih (BTState.main d (a ++ [(var, S var)])) hmMain
            ⟨hd, ha2⟩ hagree2 hSInv (by intro d0 a0 var0 values0 heq; cases heq)
          refine ⟨d2, r, ?_⟩
          simp only [btRun, hconsT, hrec]
        · have hSrest : S var ∈ rest := by
            rcases List.mem_cons.mp hSval with h1 | h1
            · exact absurd h1.symm hw
            · exact h1
          have hvcRest : ∀ d0 a0 var0 values0,
              BTState.vloop d a var rest = BTState.vloop d0 a0 var0 values0 →
              S var0 ∈ values0 := by
            intro d0 a0 var0 values0 heq
            cases heq
            exact hSrest
          obtain ⟨b, hcons2, _⟩ := consistent_spec c (a ++ [(var, w)]) ha2.1 ha2.2 hirr hwf
          cases b with
          | false =>
            obtain ⟨d2, r, hrec⟩ := ih (BTState.vloop d a var rest) hmRest hinvRest
              hagree hSInv hvcRest
            refine ⟨d2, r, ?_⟩
            simp only [btRun, hcons2]
            exact hrec
          | true =>
            obtain ⟨p1, hp1⟩ := btRun_noCrash c hirr hwf n
              (BTState.main d (a ++ [(var, w)])) ⟨hd, ha2⟩ hmMain
            obtain ⟨dI, r2⟩ := p1
            have hdI : dI = d :=
              btRun_frame c n (BTState.main d (a ++ [(var, w)])) dI r2 hp1
            subst hdI
            cases r2 with
            | some rr =>
              exact ⟨dI, rr, by simp only [btRun, hcons2, hp1]⟩
            | none =>
              obtain ⟨d2, r, hrec⟩ := ih (BTState.vloop dI a var rest) hmRest hinvRest
                hagree hSInv hvcRest
              refine ⟨d2, r, ?_⟩
              simp only [btRun, hcons2, hp1]
              exact hrec

/-- Claim C1: search completeness and soundness of `solve` — node
consistency, then `ac3`, then `backtrack` on the empty assignment.  Under
the data model (overlaps only relate slots of the puzzle, no slot
overlaps itself, and overlap offsets lie within the slot lengths): if a
complete assignment satisfying all constraints (lengths, vocabulary
membership, global word uniqueness, overlap agreement) exists, `solve`
returns a complete assignment that passes `consistent`; if none exists,
`solve` returns `None` (and in particular never raises). -/
theorem solve_complete_and_sound (c : Crossword)
    (hvars : ∀ x y, (c.overlaps x y).isSome → x ∈ c.vars ∧ y ∈ c.vars)
    (hirr : ∀ v : Variable, c.overlaps v v = none)
    (hwf : ∀ x y i j, c.overlaps x y = some (i, j) → i < x.length ∧ j < y.length) :
    ((∃ S, SpecSolution c S) →
      ∃ r, solve c = some (some r) ∧
        (∀ v ∈ c.vars, (lookupV r v).isSome = true) ∧
        consistent c r = some true) ∧
    ((¬ ∃ S, SpecSolution c S) → solve c = some none) := by
  have hkeys1 : (enforce_node_consistency (initDomains c)).map Prod.fst = c.vars := by
    rw [keys_enc, keys_initDomains]
  have hlen1 : ∀ v ws, lookupV (enforce_node_consistency (initDomains c)) v = some ws →
      ∀ w ∈ ws, w.length = v.length :=
    enc_lengths (initDomains c)
  have hwords1 : ∀ v ws, lookupV (enforce_node_consistency (initDomains c)) v = some ws →
      ∀ w ∈ ws, w ∈ c.words := by
    intro v ws h w hw
    obtain ⟨ws0, h0, hsub⟩ := enc_subset (initDomains c) v ws h
    have hv : v ∈ c.vars := by
      rw [← keys_initDomains c]
      exact (lookupV_isSome_iff_mem (initDomains c) v).mp (by rw [h0]; rfl)
    rw [lookupV_initDomains c v hv] at h0
    obtain rfl : c.words = ws0 := Option.some.inj h0
    exact hsub w hw
  have hq : ∀ p ∈ (allArcs c).reverse, (p : Variable × Variable).1 ∈ c.vars := by
    intro p hp
    obtain ⟨x, y⟩ := p
    exact ((mem_allArcs c x y).mp (List.mem_reverse.mp hp)).1
  have hkeys1some : ∀ v ∈ c.vars,
      (lookupV (enforce_node_consistency (initDomains c)) v).isSome = true := by
    intro v hv
    rw [lookupV_isSome_iff_mem, hkeys1]
    exact hv
  obtain ⟨b, d2, hacF⟩ := ac3Fuel_noCrash c hwf hvars
    (ac3Measure c (enforce_node_consistency (initDomains c)) (allArcs c).reverse + 1)
    (enforce_node_consistency (initDomains c)) (allArcs c).reverse
    (by omega) hq hkeys1some hlen1
  have hac3 : ac3 c (enforce_node_consistency (initDomains c)) none = some (b, d2) := hacF
  have hkeys2 : d2.map Prod.fst = c.vars := by
    rw [ac3Fuel_keys c _ (enforce_node_consistency (initDomains c)) _ b d2 hacF, hkeys1]
  have hlen2 : ∀ v ws, lookupV d2 v = some ws → ∀ w ∈ ws, w.length = v.length := by
    intro v ws h w hw
    obtain ⟨ws1, h1, hsub⟩ :=
      ac3Fuel_subset c _ (enforce_node_consistency (initDomains c)) _ b d2 hacF v ws h
    exact hlen1 v ws1 h1 w (hsub w hw)
  have hwords2 : ∀ v ws, lookupV d2 v = some ws → ∀ w ∈ ws, w ∈ c.words := by
    intro v ws h w hw
    obtain ⟨ws1, h1, hsub⟩ :=
      ac3Fuel_subset c _ (enforce_node_consistency (initDomains c)) _ b d2 hacF v ws h
    exact hwords1 v ws1 h1 w (hsub w hw)
  have hbtInv : btInv c (BTState.main d2 []) :=
    ⟨⟨hkeys2, hlen2, hwords2⟩, List.nodup_nil, by intro e he; cases he⟩
  constructor
  · rintro ⟨S, hS⟩
    have hSInv1 : ∀ v ∈ c.vars,
        ∃ ws, lookupV (enforce_node_consistency (initDomains c)) v = some ws ∧ S v ∈ ws := by
      intro v hv
      refine ⟨c.words.filter (fun w => w.length == v.length), ?_, ?_⟩
      · rw [lookupV_enc, lookupV_initDomains c v hv]
        rfl
      · refine List.mem_filter.mpr ⟨(hS.1 v hv).2, ?_⟩
        simp [(hS.1 v hv).1]
    obtain ⟨hSInv2, hbT⟩ := ac3Fuel_S c S hS hvars
      (ac3Measure c (enforce_node_consistency (initDomains c)) (allArcs c).reverse + 1)
      (enforce_node_consistency (initDomains c)) (allArcs c).reverse b d2 hacF hq hSInv1
    obtain ⟨dbt, r, hrun⟩ := btRun_complete c S hS hirr hwf
      (btMeasure (BTState.main d2 []) + 1) (BTState.main d2 []) (by omega) hbtInv
      (by intro e he; simp only [stateAssign] at he; exact absurd he (List.not_mem_nil e))
      (by intro v hv; simp only [stateDomains]; exact hSInv2 v hv)
      (by intro d0 a0 var0 values0 heq; cases heq)
    have hbt : backtrack c d2 [] = some (dbt, some r) := hrun
    have hsound := btRun_sound c (btMeasure (BTState.main d2 []) + 1)
      (BTState.main d2 []) dbt r hrun hbtInv
      (by simp only [stateAssign]; exact consistent_nil c)
      (by intro e he; simp only [stateAssign] at he; exact absurd he (List.not_mem_nil e))
    simp only [stateAssign, stateDomains] at hsound
    obtain ⟨hcompl, hconsr, _⟩ := hsound
    refine ⟨r, ?_, ?_, hconsr⟩
    · simp only [solve, hac3, hbt]
    · intro v hv
      rw [assignment_complete] at hcompl
      have hall := List.all_eq_true.mp hcompl
      exact hall v (by rw [hkeys2]; exact hv)
  · intro hns
    obtain ⟨pbt, hpbt⟩ := btRun_noCrash c hirr hwf (btMeasure (BTState.main d2 []) + 1)
      (BTState.main d2 []) hbtInv (by omega)
    obtain ⟨dbt, rb⟩ := pbt
    have hbt : backtrack c d2 [] = some (dbt, rb) := hpbt
    cases rb with
    | none => simp only [solve, hac3, hbt]
    | some r =>
      exfalso
      have hsound := btRun_sound c (btMeasure (BTState.main d2 []) + 1)
        (BTState.main d2 []) dbt r hpbt hbtInv
        (by simp only [stateAssign]; exact consistent_nil c)
        (by intro e he; simp only [stateAssign] at he; exact absurd he (List.not_mem_nil e))
      simp only [stateAssign, stateDomains] at hsound
      obtain ⟨hcompl, hconsr, hnodup, hsubr, horigr⟩ := hsound
      have hlk : ∀ v ∈ c.vars, ∃ w, lookupV r v = some w := by
        intro v hv
        rw [assignment_complete] at hcompl
        have hall := List.all_eq_true.mp hcompl
        exact Option.isSome_iff_exists.mp (hall v (by rw [hkeys2]; exact hv))
      obtain ⟨bc, hbc, hiff⟩ := consistent_spec c r hnodup hsubr hirr hwf
      have hbcT : bc = true := by
        rw [hconsr] at hbc
        exact (Option.some.inj hbc).symm
      have hnoviol : ¬ ((∃ v w, lookupV r v = some w ∧ w.length ≠ v.length) ∨
          (∃ v1 v2 w, v1 ≠ v2 ∧ lookupV r v1 = some w ∧ lookupV r v2 = some w) ∨
          (∃ v1 v2 i j w1 w2, c.overlaps v1 v2 = some (i, j) ∧ lookupV r v1 = some w1 ∧
            lookupV r v2 = some w2 ∧ w1[i]? ≠ w2[j]?)) := by
        intro hviol
        have hfalse := hiff.mpr hviol
        rw [hbcT] at hfalse
        exact absurd hfalse (by simp)
      apply hns
      refine ⟨fun v => (lookupV r v).getD [], ?_, ?_, ?_⟩
      · intro v hv
        obtain ⟨w, hw⟩ := hlk v hv
        obtain ⟨ws, hws, hwmem⟩ := horigr (v, w) (lookupV_mem r v w hw)
        simp only [hw, Option.getD_some]
        exact ⟨hlen2 v ws hws w hwmem, hwords2 v ws hws w hwmem⟩
      · intro u v hu hv hne heq
        obtain ⟨wu, hwu⟩ := hlk u hu
        obtain ⟨wv, hwv⟩ := hlk v hv
        simp only [hwu, hwv, Option.getD_some] at heq
        refine hnoviol (Or.inr (Or.inl ⟨u, v, wu, hne, hwu, ?_⟩))
        rw [← heq] at hwv
        exact hwv
      · intro u v i j hov
        have hu : u ∈ c.vars := (hvars u v (by rw [hov]; rfl)).1
        have hv : v ∈ c.vars := (hvars u v (by rw [hov]; rfl)).2
        obtain ⟨wu, hwu⟩ := hlk u hu
        obtain ⟨wv, hwv⟩ := hlk v hv
        have hequ : wu[i]? = wv[j]? := by
          by_contra hne2
          exact hnoviol (Or.inr (Or.inr ⟨u, v, i, j, wu, wv, hov, hwu, hwv, hne2⟩))
        have hlu : wu.length = u.length := by
          obtain ⟨ws, hws, hwmem⟩ := horigr (u, wu) (lookupV_mem r u wu hwu)
          exact hlen2 u ws hws wu hwmem
        have hi : i < wu.length := by
          rw [hlu]
          exact (hwf u v i j hov).1
        refine ⟨wu.get ⟨i, hi⟩, ?_, ?_⟩
        · simp only [hwu, Option.getD_some]
          rw [List.getElem?_eq_getElem hi]
          rfl
        · simp only [hwv, Option.getD_some]
          rw [← hequ, List.getElem?_eq_getElem hi]
          rfl

/-- Witness for C1 on a concrete satisfiable two-slot puzzle: `solve`
finds a complete consistent assignment. -/
theorem solve_complete_and_sound_witness :
    ∃ r, solve c2Cross = some (some r) ∧
      (∀ v ∈ c2Cross.vars, (lookupV r v).isSome = true) ∧
      consistent c2Cross r = some true := by
  refine (solve_complete_and_sound c2Cross (twoSlotOverlaps_vars vA vB 0 0)
    (twoSlotOverlaps_irr vA vB 0 0 (by decide))
    (twoSlotOverlaps_wf vA vB 0 0 (by decide) (by decide))).1 ?_
  refine ⟨fun v => if v = vA then ['a', 'b'] else ['a', 'c'], ?_, ?_, ?_⟩
  · decide
  · intro u v hu hv hne
    have hu2 : u = vA ∨ u = vB := by
      have h : u ∈ [vA, vB] := hu
      simpa using h
    have hv2 : v = vA ∨ v = vB := by
      have h : v ∈ [vA, vB] := hv
      simpa using h
    rcases hu2 with rfl | rfl <;> rcases hv2 with rfl | rfl
    · exact absurd rfl hne
    · decide
    · decide
    · exact absurd rfl hne
  · intro u v i j hov
    have hov2 : twoSlotOverlaps vA vB 0 0 u v = some (i, j) := hov
    rw [twoSlotOverlaps] at hov2
    by_cases h1 : u = vA ∧ v = vB
    · obtain ⟨rfl, rfl⟩ := h1
      rw [if_pos ⟨rfl, rfl⟩] at hov2
      obtain ⟨rfl, rfl⟩ : (0 : Nat) = i ∧ (0 : Nat) = j := by
        have h := Option.some.inj hov2
        exact ⟨congrArg Prod.fst h, congrArg Prod.snd h⟩
      exact ⟨'a', by decide, by decide⟩
    · rw [if_neg h1] at hov2
      by_cases h2 : u = vB ∧ v = vA
      · obtain ⟨rfl, rfl⟩ := h2
        rw [if_pos ⟨rfl, rfl⟩] at hov2
        obtain ⟨rfl, rfl⟩ : (0 : Nat) = i ∧ (0 : Nat) = j := by
          have h := Option.some.inj hov2
          exact ⟨congrArg Prod.fst h, congrArg Prod.snd h⟩
        exact ⟨'a', by decide, by decide⟩
      · rw [if_neg h2] at hov2
        exact absurd hov2 (by simp)

end CW
